import Mathlib

/-!
# Verification of the buffer-layout binary layout engine

A shallow embedding of `src/lib/Layout.js` (the pabigot/buffer-layout
module).  Buffers are lists of byte values, JavaScript numbers are
modelled as integers — with IEEE-754 binary64 rounding modelled
explicitly at the points where the source's behaviour depends on it —
and operations that `throw` in JavaScript return `Except String`.

Conventions used throughout:

* `Buf` is a JavaScript `Buffer`: a list of natural numbers, each `< 256`
  in any buffer that arises from the modelled operations.
* Offsets are integers, because the source can (and, for a structure
  with an omitted variable-span field, does) produce negative offsets.
* Node's checked `readUInt*`/`writeUInt*` buffer accessors are modelled
  by `readUIntG`/`writeUIntG`, which fail on out-of-range values or
  offsets exactly as the (bounds-checked) Node primitives do.
* Functions are named after the source functions they translate.
-/

namespace BufferLayout

/-- Bytes of a JavaScript `Buffer`, lowest index first. -/
abbrev Buf := List ℕ

/-- Overwrite the bytes of `b` starting at index `s` with `bs`
(callers establish `s + bs.length ≤ b.length`). -/
def writeBytesAt (b : Buf) (s : ℕ) (bs : Buf) : Buf :=
  b.take s ++ bs ++ b.drop (s + bs.length)

/-- Value of a little-endian byte string. -/
def leVal : Buf → ℕ
  | [] => 0
  | x :: xs => x + 256 * leVal xs

/-- Little-endian byte string of `v`, `n` bytes long. -/
def bytesLE : ℕ → ℕ → Buf
  | _, 0 => []
  | v, n + 1 => v % 256 :: bytesLE (v / 256) n

/-- `Buffer.prototype.readUIntLE/BE` (checked): read an `n`-byte unsigned
integer at `off`; Node raises a `RangeError` when the requested range is
not inside the buffer. -/
def readUIntG (be : Bool) (b : Buf) (off : ℤ) (n : ℕ) : Except String ℕ :=
  if 0 ≤ off ∧ off.toNat + n ≤ b.length then
    let sub := (b.drop off.toNat).take n
    .ok (leVal (if be then sub.reverse else sub))
  else .error "RangeError: index out of range"

/-- `Buffer.prototype.writeUIntLE/BE` (checked): Node raises a
`TypeError`-style error for an out-of-range value and a `RangeError`
for an out-of-range offset, in that order, before writing anything. -/
def writeUIntG (be : Bool) (v : ℤ) (b : Buf) (off : ℤ) (n : ℕ) :
    Except String Buf :=
  if v < 0 ∨ (2 : ℤ) ^ (8 * n) ≤ v then .error "TypeError: value is out of bounds"
  else if 0 ≤ off ∧ off.toNat + n ≤ b.length then
    let bs := bytesLE v.toNat n
    .ok (writeBytesAt b off.toNat (if be then bs.reverse else bs))
  else .error "RangeError: index out of range"

/-! ## Basic facts about the byte primitives -/

theorem bytesLE_length (v n : ℕ) : (bytesLE v n).length = n := by
  induction n generalizing v with
  | zero => rfl
  | succ n ih => simp [bytesLE, ih]

theorem leVal_bytesLE (v n : ℕ) (h : v < 256 ^ n) : leVal (bytesLE v n) = v := by
  induction n generalizing v with
  | zero => simp [bytesLE, leVal]; omega
  | succ n ih =>
      have hv : v / 256 < 256 ^ n := by
        have : 256 ^ (n + 1) = 256 ^ n * 256 := by ring
        omega
      simp [bytesLE, leVal, ih (v / 256) hv]
      omega

theorem writeBytesAt_length (b : Buf) (s : ℕ) (bs : Buf)
    (h : s + bs.length ≤ b.length) : (writeBytesAt b s bs).length = b.length := by
  simp [writeBytesAt]
  omega

/-! ## The near-64-bit integer codecs

`NearUInt64`, `NearUInt64BE`, `NearInt64` and `NearInt64BE` split a
JavaScript number into 32-bit halves on encode and reconstruct
`hi32 * 2^32 + lo32` on decode.  The JavaScript arithmetic is IEEE-754
binary64; the places where that matters are modelled explicitly:

* a JavaScript number argument is an integral binary64 value, captured
  by `IsIntegralDouble`;
* `Math.floor(src / V2E32)` is exact for an integral double `src`
  (division by a power of two is exact barring overflow/underflow, and
  the floor of any double is itself representable), and equals flooring
  integer division, `Int.fdiv`;
* `src - hi32 * V2E32` is exact: the product is a power-of-two shift of
  a representable value and the true difference is an integer in
  `[0, 2^32)`, hence representable, so the subtraction does not round;
* `hi32 * V2E32 + lo32` on decode performs one rounding: the product is
  exact (`hi32` has at most 32 significant bits) and the addition
  rounds the exact integer sum to the nearest binary64 value; this
  rounding is the computable `rnd` below (round to nearest, ties to
  even, on the integers representable in binary64). -/

/-- `V2E32 = Math.pow(2, 32)` from the source. -/
def V2E32 : ℤ := 4294967296

/-- `divmodInt64` from the source: true-modulus high and low 32-bit
words, the low word always non-negative.  `Math.floor(src / V2E32)` is
translated as `Int.fdiv` (see the section comment for why that is exact
for integral doubles). -/
def divmodInt64 (src : ℤ) : ℤ × ℤ :=
  (src.fdiv V2E32, src - src.fdiv V2E32 * V2E32)

/-- Fuel-driven binade finder: the exponent of the unit in the last
place of the binary64 value nearest to `n` (`0` below `2^53`). -/
def ulpExpAux : ℕ → ℕ → ℕ
  | 0, _ => 0
  | f + 1, n => if n < 2 ^ 53 then 0 else ulpExpAux f (n / 2) + 1

/-- Exponent of the ulp of `n` viewed in binary64 (`max 0 (⌊log2 n⌋ - 52)`). -/
def ulpExp (n : ℕ) : ℕ := ulpExpAux n n

/-- IEEE-754 binary64 round-to-nearest, ties-to-even, restricted to
natural numbers: round `n` to the nearest multiple of `2 ^ ulpExp n`. -/
def rndNat (n : ℕ) : ℕ :=
  let p := 2 ^ ulpExp n
  let q := n / p
  let r := n % p
  if 2 * r < p then q * p
  else if p < 2 * r then (q + 1) * p
  else if q % 2 = 0 then q * p else (q + 1) * p

/-- binary64 rounding on integers (rounding is sign-symmetric). -/
def rnd (z : ℤ) : ℤ :=
  if z < 0 then -(rndNat (-z).toNat : ℤ) else (rndNat z.toNat : ℤ)

/-- `roundedInt64` from the source: `hi32 * V2E32 + lo32` evaluated in
binary64 — the product is exact and the addition rounds once. -/
def roundedInt64 (hi lo : ℤ) : ℤ := rnd (hi * V2E32 + lo)

/-- An integer that is exactly representable as a binary64 value. -/
def IsIntegralDouble (z : ℤ) : Prop :=
  ∃ m e : ℕ, m < 2 ^ 53 ∧ (z = (m : ℤ) * 2 ^ e ∨ z = -((m : ℤ) * 2 ^ e))

/-- `Buffer.prototype.writeUInt32LE` (checked) producing just the four
bytes written. -/
def writeUInt32LEbytes (v : ℤ) : Option Buf :=
  if 0 ≤ v ∧ v < V2E32 then some (bytesLE v.toNat 4) else none

/-- `Buffer.prototype.writeInt32LE` (checked): two's-complement store. -/
def writeInt32LEbytes (v : ℤ) : Option Buf :=
  if -(2 ^ 31) ≤ v ∧ v < 2 ^ 31 then some (bytesLE (v % V2E32).toNat 4) else none

/-- `Buffer.prototype.readInt32LE` on four already-read bytes. -/
def leValSigned (bs : Buf) : ℤ :=
  let u := leVal bs
  if u < 2 ^ 31 then (u : ℤ) else (u : ℤ) - 2 ^ 32

namespace NearUInt64

/-- `NearUInt64.prototype.encode`: low word first, both little-endian.
`none` models the `writeUInt32LE` range error. -/
def encode (src : ℤ) : Option Buf := do
  let s := divmodInt64 src
  let lob ← writeUInt32LEbytes s.2
  let hib ← writeUInt32LEbytes s.1
  pure (lob ++ hib)

/-- `NearUInt64.prototype.decode` on the layout's eight bytes. -/
def decode (b : Buf) : ℤ :=
  roundedInt64 (leVal ((b.drop 4).take 4)) (leVal (b.take 4))

end NearUInt64

namespace NearUInt64BE

/-- `NearUInt64BE.prototype.encode`: high word first, both big-endian. -/
def encode (src : ℤ) : Option Buf := do
  let s := divmodInt64 src
  let hib ← writeUInt32LEbytes s.1
  let lob ← writeUInt32LEbytes s.2
  pure (hib.reverse ++ lob.reverse)

/-- `NearUInt64BE.prototype.decode`. -/
def decode (b : Buf) : ℤ :=
  roundedInt64 (leVal ((b.take 4).reverse)) (leVal (((b.drop 4).take 4).reverse))

end NearUInt64BE

namespace NearInt64

/-- `NearInt64.prototype.encode`: unsigned low word, signed high word,
both little-endian. -/
def encode (src : ℤ) : Option Buf := do
  let s := divmodInt64 src
  let lob ← writeUInt32LEbytes s.2
  let hib ← writeInt32LEbytes s.1
  pure (lob ++ hib)

/-- `NearInt64.prototype.decode`. -/
def decode (b : Buf) : ℤ :=
  roundedInt64 (leValSigned ((b.drop 4).take 4)) (leVal (b.take 4))

end NearInt64

namespace NearInt64BE

/-- `NearInt64BE.prototype.encode`: signed high word first, both
big-endian. -/
def encode (src : ℤ) : Option Buf := do
  let s := divmodInt64 src
  let hib ← writeInt32LEbytes s.1
  let lob ← writeUInt32LEbytes s.2
  pure (hib.reverse ++ lob.reverse)

/-- `NearInt64BE.prototype.decode`. -/
def decode (b : Buf) : ℤ :=
  roundedInt64 (leValSigned ((b.take 4).reverse)) (leVal (((b.drop 4).take 4).reverse))

end NearInt64BE

/-! ### Rounding fixes representable integers -/

theorem ulpExpAux_le (f n k : ℕ) (hn : n < 2 ^ (53 + k)) (hk : k ≤ f) :
    ulpExpAux f n ≤ k := by
  induction f generalizing n k with
  | zero => simp [ulpExpAux]
  | succ f ih =>
      by_cases h : n < 2 ^ 53
      · have h9 : n < 9007199254740992 := by norm_num at h; exact h
        simp [ulpExpAux, h9]
      · have hk1 : 1 ≤ k := by
          by_contra hc
          have : k = 0 := by omega
          subst this
          exact h (by simpa using hn)
        have hn2 : n / 2 < 2 ^ (53 + (k - 1)) := by
          have : 2 ^ (53 + k) = 2 ^ (53 + (k - 1)) * 2 := by
            rw [← pow_succ]
            congr 1
            omega
          omega
        have := ih (n / 2) (k - 1) hn2 (by omega)
        simp only [ulpExpAux, h, if_false]
        omega

theorem pow_ulpExp_dvd (m e : ℕ) (hm : m < 2 ^ 53) :
    2 ^ ulpExp (m * 2 ^ e) ∣ m * 2 ^ e := by
  rcases Nat.eq_zero_or_pos m with hm0 | hm0
  · subst hm0
    simp
  · have hlt : m * 2 ^ e < 2 ^ (53 + e) := by
      rw [pow_add]
      exact Nat.mul_lt_mul_of_pos_right hm (by positivity)
    have hfuel : e ≤ m * 2 ^ e := by
      calc e ≤ 2 ^ e := (Nat.lt_two_pow e).le
        _ ≤ m * 2 ^ e := Nat.le_mul_of_pos_left _ hm0
    have := ulpExpAux_le (m * 2 ^ e) (m * 2 ^ e) e hlt hfuel
    exact dvd_trans (pow_dvd_pow 2 this) (dvd_mul_left (2 ^ e) m)

theorem rndNat_eq_self (n : ℕ) (h : 2 ^ ulpExp n ∣ n) : rndNat n = n := by
  unfold rndNat
  have hp : 0 < 2 ^ ulpExp n := by positivity
  have hr : n % 2 ^ ulpExp n = 0 := Nat.dvd_iff_mod_eq_zero.mp h
  simp only [hr]
  rw [if_pos (by omega)]
  exact Nat.div_mul_cancel h

theorem rnd_fixed (z : ℤ) (h : IsIntegralDouble z) : rnd z = z := by
  obtain ⟨m, e, hm, hz | hz⟩ := h
  · have hz0 : 0 ≤ z := by
      rw [hz]
      positivity
    have hcast : ((m * 2 ^ e : ℕ) : ℤ) = (m : ℤ) * 2 ^ e := by
      push_cast
      ring
    have ht : z.toNat = m * 2 ^ e := by
      rw [hz, ← hcast, Int.toNat_natCast]
    rw [rnd, if_neg (by omega), ht,
      rndNat_eq_self _ (pow_ulpExp_dvd m e hm), hz]
    push_cast
    ring
  · have hcast : ((m * 2 ^ e : ℕ) : ℤ) = (m : ℤ) * 2 ^ e := by
      push_cast
      ring
    rcases Nat.eq_zero_or_pos (m * 2 ^ e) with h0 | h0
    · have hz00 : z = 0 := by
        rw [hz, ← hcast, h0]
        simp
      subst hz00
      decide
    · have hz0 : z < 0 := by
        rw [hz, ← hcast]
        exact neg_neg_of_pos (by exact_mod_cast h0)
      have ht : (-z).toNat = m * 2 ^ e := by
        rw [hz, neg_neg, ← hcast, Int.toNat_natCast]
      rw [rnd, if_pos hz0, ht,
        rndNat_eq_self _ (pow_ulpExp_dvd m e hm), hz, ← hcast]

/-! ### Near-64-bit round-trip (claim C2) -/

theorem take_drop_4 (x y : Buf) (hx : x.length = 4) :
    (x ++ y).take 4 = x ∧ (x ++ y).drop 4 = y :=
  ⟨List.take_left' hx, List.drop_left' hx⟩

theorem leVal_lt (bs : Buf) (hb : ∀ c ∈ bs, c < 256) :
    leVal bs < 256 ^ bs.length := by
  induction bs with
  | nil => simp [leVal]
  | cons c cs ih =>
      have hc := hb c (by simp)
      have hcs := ih (fun d hd => hb d (by simp [hd]))
      simp only [leVal, List.length_cons]
      calc c + 256 * leVal cs < 256 + 256 * leVal cs := by omega
        _ ≤ 256 * 256 ^ cs.length := by omega
        _ = 256 ^ (cs.length + 1) := by ring

theorem leValSigned_int32 (hi : ℤ) (h1 : -(2 ^ 31) ≤ hi) (h2 : hi < 2 ^ 31) :
    leValSigned (bytesLE (hi % V2E32).toNat 4) = hi := by
  have hm0 : (0 : ℤ) ≤ hi % V2E32 := Int.emod_nonneg _ (by norm_num [V2E32])
  have hm1 : hi % V2E32 < V2E32 := Int.emod_lt_of_pos _ (by norm_num [V2E32])
  have hrt : leVal (bytesLE (hi % V2E32).toNat 4) = (hi % V2E32).toNat :=
    leVal_bytesLE _ _ (by simp [V2E32] at hm1 ⊢; omega)
  have hv : ((hi % V2E32).toNat : ℤ) = hi % V2E32 := Int.toNat_of_nonneg hm0
  simp only [leValSigned, hrt]
  simp only [V2E32] at hm0 hm1 hv ⊢
  split_ifs with hlt <;> omega

theorem leVal_uint32 (u : ℤ) (h1 : 0 ≤ u) (h2 : u < V2E32) :
    (leVal (bytesLE u.toNat 4) : ℤ) = u := by
  have hrt : leVal (bytesLE u.toNat 4) = u.toNat :=
    leVal_bytesLE _ _ (by simp [V2E32] at h2; omega)
  rw [hrt]
  omega

theorem divmod_recombine (v : ℤ) :
    (divmodInt64 v).1 * V2E32 + (divmodInt64 v).2 = v := by
  simp [divmodInt64]

namespace NearUInt64

theorem nu64_decode_encode (v : ℤ) (hv : IsIntegralDouble v) (B : Buf)
    (h : encode v = some B) : decode B = v := by
  simp only [encode, writeUInt32LEbytes, Option.bind_eq_bind] at h
  split_ifs at h with h2 h1
  · simp only [Option.some_bind, Option.pure_def] at h
    obtain ⟨hl2, hl2'⟩ := h2
    obtain ⟨hl1, hl1'⟩ := h1
    have hlen : (bytesLE (divmodInt64 v).2.toNat 4).length = 4 := bytesLE_length _ _
    obtain ⟨ht, hd⟩ := take_drop_4 _ (bytesLE (divmodInt64 v).1.toNat 4) hlen
    have hdl : ((bytesLE (divmodInt64 v).1.toNat 4).take 4)
        = bytesLE (divmodInt64 v).1.toNat 4 :=
      List.take_of_length_le (by rw [bytesLE_length])
    cases Option.some.inj h
    simp only [decode, hd, ht, hdl, roundedInt64]
    rw [leVal_uint32 _ hl1 hl1', leVal_uint32 _ hl2 hl2', divmod_recombine]
    exact rnd_fixed v hv
  all_goals simp at h

end NearUInt64

namespace NearUInt64BE

theorem nu64be_decode_encode (v : ℤ) (hv : IsIntegralDouble v) (B : Buf)
    (h : encode v = some B) : decode B = v := by
  simp only [encode, writeUInt32LEbytes, Option.bind_eq_bind] at h
  split_ifs at h with h1 h2
  · simp only [Option.some_bind, Option.pure_def] at h
    obtain ⟨hl2, hl2'⟩ := h2
    obtain ⟨hl1, hl1'⟩ := h1
    have hlen : ((bytesLE (divmodInt64 v).1.toNat 4).reverse).length = 4 := by
      rw [List.length_reverse, bytesLE_length]
    obtain ⟨ht, hd⟩ := take_drop_4 _ ((bytesLE (divmodInt64 v).2.toNat 4).reverse) hlen
    have hdl : (((bytesLE (divmodInt64 v).2.toNat 4).reverse).take 4)
        = (bytesLE (divmodInt64 v).2.toNat 4).reverse :=
      List.take_of_length_le (by rw [List.length_reverse, bytesLE_length])
    cases Option.some.inj h
    simp only [decode, hd, ht, hdl, List.reverse_reverse, roundedInt64]
    rw [leVal_uint32 _ hl1 hl1', leVal_uint32 _ hl2 hl2', divmod_recombine]
    exact rnd_fixed v hv
  all_goals simp at h

end NearUInt64BE

namespace NearInt64

theorem ni64_decode_encode (v : ℤ) (hv : IsIntegralDouble v) (B : Buf)
    (h : encode v = some B) : decode B = v := by
  simp only [encode, writeUInt32LEbytes, writeInt32LEbytes, Option.bind_eq_bind] at h
  split_ifs at h with h2 h1
  · simp only [Option.some_bind, Option.pure_def] at h
    obtain ⟨hl2, hl2'⟩ := h2
    obtain ⟨hl1, hl1'⟩ := h1
    have hlen : (bytesLE (divmodInt64 v).2.toNat 4).length = 4 := bytesLE_length _ _
    obtain ⟨ht, hd⟩ := take_drop_4 _ (bytesLE ((divmodInt64 v).1 % V2E32).toNat 4) hlen
    have hdl : ((bytesLE ((divmodInt64 v).1 % V2E32).toNat 4).take 4)
        = bytesLE ((divmodInt64 v).1 % V2E32).toNat 4 :=
      List.take_of_length_le (by rw [bytesLE_length])
    cases Option.some.inj h
    simp only [decode, hd, ht, hdl, roundedInt64]
    rw [leValSigned_int32 _ hl1 hl1', leVal_uint32 _ hl2 hl2', divmod_recombine]
    exact rnd_fixed v hv
  all_goals simp at h

end NearInt64

namespace NearInt64BE

theorem ni64be_decode_encode (v : ℤ) (hv : IsIntegralDouble v) (B : Buf)
    (h : encode v = some B) : decode B = v := by
  simp only [encode, writeUInt32LEbytes, writeInt32LEbytes, Option.bind_eq_bind] at h
  split_ifs at h with h1 h2
  · simp only [Option.some_bind, Option.pure_def] at h
    obtain ⟨hl2, hl2'⟩ := h2
    obtain ⟨hl1, hl1'⟩ := h1
    have hlen : ((bytesLE ((divmodInt64 v).1 % V2E32).toNat 4).reverse).length = 4 := by
      rw [List.length_reverse, bytesLE_length]
    obtain ⟨ht, hd⟩ := take_drop_4 _ ((bytesLE (divmodInt64 v).2.toNat 4).reverse) hlen
    have hdl : (((bytesLE (divmodInt64 v).2.toNat 4).reverse).take 4)
        = (bytesLE (divmodInt64 v).2.toNat 4).reverse :=
      List.take_of_length_le (by rw [List.length_reverse, bytesLE_length])
    cases Option.some.inj h
    simp only [decode, hd, ht, hdl, List.reverse_reverse, roundedInt64]
    rw [leValSigned_int32 _ hl1 hl1', leVal_uint32 _ hl2 hl2', divmod_recombine]
    exact rnd_fixed v hv
  all_goals simp at h

end NearInt64BE

/-- C2: for each near-64-bit integer layout (NearUInt64, NearUInt64BE,
NearInt64, NearInt64BE) and every integral source value `v` — a
JavaScript number argument is an integral binary64 value, which the
hypothesis `IsIntegralDouble v` captures, including magnitudes at or
above `2^53` — if encoding `v` yields buffer bytes `B`, then re-encoding
the value obtained by decoding `B` yields bytes identical to `B`. -/
theorem c2_near64_reencode (v : ℤ) (hv : IsIntegralDouble v) :
    (∀ B, NearUInt64.encode v = some B →
        NearUInt64.encode (NearUInt64.decode B) = some B)
  ∧ (∀ B, NearUInt64BE.encode v = some B →
        NearUInt64BE.encode (NearUInt64BE.decode B) = some B)
  ∧ (∀ B, NearInt64.encode v = some B →
        NearInt64.encode (NearInt64.decode B) = some B)
  ∧ (∀ B, NearInt64BE.encode v = some B →
        NearInt64BE.encode (NearInt64BE.decode B) = some B) :=
  ⟨fun B h => (NearUInt64.nu64_decode_encode v hv B h).symm ▸ h,
   fun B h => (NearUInt64BE.nu64be_decode_encode v hv B h).symm ▸ h,
   fun B h => (NearInt64.ni64_decode_encode v hv B h).symm ▸ h,
   fun B h => (NearInt64BE.ni64be_decode_encode v hv B h).symm ▸ h⟩

/-- Witness for C2 at the spec's example value: `16653386363428027`
parses to the binary64 value `16653386363428028 = 4163346590857007·2^2`,
whose encoding round-trips to the identical eight bytes. -/
theorem c2_near64_reencode_witness :
    IsIntegralDouble 16653386363428028
    ∧ NearUInt64.encode 16653386363428028
        = some [188, 220, 127, 170, 42, 42, 59, 0]
    ∧ NearUInt64.encode
          (NearUInt64.decode [188, 220, 127, 170, 42, 42, 59, 0])
        = some [188, 220, 127, 170, 42, 42, 59, 0] := by
  refine ⟨⟨4163346590857007, 2, by norm_num, Or.inl (by norm_num)⟩, by decide, ?_⟩
  exact (c2_near64_reencode 16653386363428028
      ⟨4163346590857007, 2, by norm_num, Or.inl (by norm_num)⟩).1
    [188, 220, 127, 170, 42, 42, 59, 0] (by decide)

/-! ## JavaScript values

The values the layouts translate to and from: numbers (integral),
booleans, strings (kept as their UTF-8 bytes), `Buffer`s, arrays and
plain objects (ordered property lists, later assignments shadowed by
being listed first never arise in the modelled operations). -/

inductive Value where
  | num (z : ℤ)
  | vbool (b : Bool)
  | str (utf8 : List ℕ)
  | bytes (data : List ℕ)
  | arr (elems : List Value)
  | obj (props : List (String × Value))

/-- `src[p]`: `none` models JavaScript `undefined`. -/
def lookupObj (v : Value) (p : String) : Option Value :=
  match v with
  | .obj kvs => (kvs.find? (fun kv => kv.1 == p)).map (fun kv => kv.2)
  | _ => none

/-- `src.hasOwnProperty(p)`. -/
def hasOwn (v : Value) (p : String) : Bool :=
  match v with
  | .obj kvs => kvs.any (fun kv => kv.1 == p)
  | _ => false

/-- JavaScript `ToUint32` (the bit pattern shared with `ToInt32`). -/
def toUint32 (z : ℤ) : ℕ := (z % 4294967296).toNat

/-! ## BitStructure and BitField

A `BitField` is not a `Layout`: it extracts from and overlays into an
in-memory packed word.  The source stages that word in closure state on
the `BitStructure` instance; here the word is threaded through the
calls, which preserves the single-threaded semantics (in particular, a
field whose `encode` throws has not modified the staged word). -/

structure BitFieldM where
  bits : ℕ
  valueMask : ℕ
  start : ℕ
  wordMask : ℕ
  property : Option String
  /-- built by `addBoolean` (a source `Boolean` instance, which
  overrides only `decode`). -/
  isBool : Bool

/-- The `BitField` constructor: computes the masks and start position
from the container's accumulated fields, rejecting zero widths and
overflow of the word.  JavaScript `<<` takes its count mod 32 and
produces a 32-bit pattern, hence the `% 32` and `% 2^32`. -/
def mkBitField (wordSpan : ℕ) (msb : Bool) (fields : List BitFieldM)
    (bits : ℕ) (property : Option String) (isBool : Bool) :
    Except String BitFieldM :=
  if bits = 0 then .error "TypeError: bits must be positive integer"
  else
    let totalBits := 8 * wordSpan
    let usedBits := (fields.map BitFieldM.bits).sum
    if totalBits < bits + usedBits then
      .error "bits too long for span remainder"
    else
      let valueMask : ℕ :=
        if bits = 32 then 4294967295 else (1 <<< (bits % 32)) - 1
      let start := if msb then totalBits - usedBits - bits else usedBits
      let wordMask : ℕ := (valueMask <<< (start % 32)) % 4294967296
      .ok ⟨bits, valueMask, start, wordMask, property, isBool⟩

/-- `BitStructure.prototype.addField`/`addBoolean` on a field list,
total for convenience in building concrete instances (identity when the
constructor would throw). -/
def addFieldD (wordSpan : ℕ) (msb : Bool) (fields : List BitFieldM)
    (bits : ℕ) (property : Option String) (isBool : Bool) : List BitFieldM :=
  match mkBitField wordSpan msb fields bits property isBool with
  | .ok f => fields ++ [f]
  | .error _ => fields

/-- `BitField.prototype.decode`: `(word & wordMask) >>> start`. -/
def bitFieldDecode (f : BitFieldM) (word : ℕ) : ℕ :=
  (word &&& f.wordMask) >>> f.start

/-- `BitField.prototype.encode`: rejects any value that is not an
integer equal to itself masked by `valueMask`
(`value != fixBitwiseResult(value & valueMask)` over `ToInt32`
patterns), then overlays the value in the staged word.  The check
precedes any modification, so an error leaves the staged word with the
caller unchanged. -/
def bitFieldEncode (f : BitFieldM) (value : Value) (word : ℕ) :
    Except String ℕ :=
  match value with
  | .num z =>
      if z ≠ ((toUint32 z) &&& (toUint32 (f.valueMask : ℤ)) : ℕ) then
        .error "value must be integer not exceeding valueMask"
      else
        let wordValue := (z.toNat <<< (f.start % 32)) % 4294967296
        .ok ((word &&& (4294967295 - f.wordMask % 4294967296)) ||| wordValue)
  | _ => .error "value must be integer not exceeding valueMask"

/-- The field walk of `BitStructure.prototype.decode`. -/
def bitsDecodeFields (flds : List BitFieldM) (word : ℕ) :
    List (String × Value) :=
  match flds with
  | [] => []
  | f :: rest =>
      match f.property with
      | none => bitsDecodeFields rest word
      | some p =>
          (p, if f.isBool then Value.vbool (bitFieldDecode f word != 0)
              else Value.num (bitFieldDecode f word)) ::
            bitsDecodeFields rest word

/-- `BitStructure.prototype.decode`. -/
def bitsDecode (be : Bool) (wordSpan : ℕ) (flds : List BitFieldM)
    (b : Buf) (off : ℤ) : Except String Value := do
  let w ← readUIntG be b off wordSpan
  .ok (Value.obj (bitsDecodeFields flds w))

/-- The field walk of `BitStructure.prototype.encode`: fields without a
property, or whose property is absent from the source, leave the staged
word unchanged. -/
def bitsEncodeFields (flds : List BitFieldM) (src : Value) (word : ℕ) :
    Except String ℕ :=
  match flds with
  | [] => .ok word
  | f :: rest =>
      match f.property with
      | none => bitsEncodeFields rest src word
      | some p =>
          match lookupObj src p with
          | none => bitsEncodeFields rest src word
          | some fv => do
              let w' ← bitFieldEncode f fv word
              bitsEncodeFields rest src w'

/-- `BitStructure.prototype.encode`: read the current word, overlay the
present fields, write the word back; returns the word span. -/
def bitsEncode (be : Bool) (wordSpan : ℕ) (flds : List BitFieldM)
    (src : Value) (b : Buf) (off : ℤ) : Except String (ℤ × Buf) := do
  let w ← readUIntG be b off wordSpan
  let w' ← bitsEncodeFields flds src w
  let b' ← writeUIntG be (w' : ℤ) b off wordSpan
  .ok ((wordSpan : ℤ), b')

/-! ### Bit packing exactness (claim C8) -/

/-- The C8 bit structure over a 4-byte little-endian word, LSB-first:
widths 1, 4, 11, 16 added in that order. -/
def c8FieldsLSB : List BitFieldM :=
  addFieldD 4 false
    (addFieldD 4 false
      (addFieldD 4 false
        (addFieldD 4 false [] 1 (some "a1") false) 4 (some "b4") false)
      11 (some "c11") false)
    16 (some "d16") false

/-- The same widths and order with MSB-first numbering. -/
def c8FieldsMSB : List BitFieldM :=
  addFieldD 4 true
    (addFieldD 4 true
      (addFieldD 4 true
        (addFieldD 4 true [] 1 (some "a1") false) 4 (some "b4") false)
      11 (some "c11") false)
    16 (some "d16") false

/-- The C8 source object `{a1:0, b4:9, c11:0x4F1, d16:0x8a51}`. -/
def c8Src : Value :=
  .obj [("a1", .num 0), ("b4", .num 9), ("c11", .num 1265), ("d16", .num 35409)]

theorem c8_word_lsb (w : ℕ) :
    bitsEncodeFields c8FieldsLSB c8Src w = .ok 2320604722 := by
  have h : ((w &&& 4294967294 &&& 4294967265 ||| 18) &&& 4294901791 ||| 40480)
      &&& 65535 ||| 2320564224 = 2320604722 := by
    apply Nat.eq_of_testBit_eq
    intro i
    rcases Nat.lt_or_ge i 32 with hi | hi
    · interval_cases i <;>
        simp only [Nat.testBit_or, Nat.testBit_and] <;>
        (cases hw : w.testBit _ <;> simp [hw] <;> decide)
    · have hc : ∀ c : ℕ, c < 4294967296 → c.testBit i = false := fun c hc =>
        Nat.testBit_lt_two_pow
          (lt_of_lt_of_le hc (Nat.pow_le_pow_right (show 0 < 2 by norm_num) hi))
      simp only [Nat.testBit_or, Nat.testBit_and,
        hc 4294967294 (by norm_num), hc 4294967265 (by norm_num),
        hc 4294901791 (by norm_num), hc 65535 (by norm_num), hc 18 (by norm_num),
        hc 40480 (by norm_num), hc 2320564224 (by norm_num),
        hc 2320604722 (by norm_num)]
      simp
  simp +decide [c8FieldsLSB, addFieldD, mkBitField, c8Src, bitsEncodeFields,
    bitFieldEncode, lookupObj, toUint32, Except.bind, Bind.bind, h]

theorem c8_word_msb (w : ℕ) :
    bitsEncodeFields c8FieldsMSB c8Src w = .ok 1290898001 := by
  have h : ((w &&& 2147483647 &&& 2281701375 ||| 1207959552) &&& 4160815103
      ||| 82903040) &&& 4294901760 ||| 35409 = 1290898001 := by
    apply Nat.eq_of_testBit_eq
    intro i
    rcases Nat.lt_or_ge i 32 with hi | hi
    · interval_cases i <;>
        simp only [Nat.testBit_or, Nat.testBit_and] <;>
        (cases hw : w.testBit _ <;> simp [hw] <;> decide)
    · have hc : ∀ c : ℕ, c < 4294967296 → c.testBit i = false := fun c hc =>
        Nat.testBit_lt_two_pow
          (lt_of_lt_of_le hc (Nat.pow_le_pow_right (show 0 < 2 by norm_num) hi))
      simp only [Nat.testBit_or, Nat.testBit_and,
        hc 2147483647 (by norm_num), hc 2281701375 (by norm_num),
        hc 4160815103 (by norm_num), hc 4294901760 (by norm_num),
        hc 1207959552 (by norm_num), hc 82903040 (by norm_num),
        hc 35409 (by norm_num), hc 1290898001 (by norm_num)]
      simp
  simp +decide [c8FieldsMSB, addFieldD, mkBitField, c8Src, bitsEncodeFields,
    bitFieldEncode, lookupObj, toUint32, Except.bind, Bind.bind, h]

/-- C8: for a BitStructure over a 4-byte little-endian unsigned word
with fields of widths 1, 4, 11, and 16 added in that order, encoding
`{a1:0, b4:9, c11:0x4F1, d16:0x8a51}` into a 4-byte buffer (of any
prior contents — the four fields cover all 32 bits) produces exactly
the bytes `32 9e 51 8a` with LSB-first numbering and exactly
`51 8a f1 4c` with MSB-first numbering. -/
theorem c8_bit_packing (b0 b1 b2 b3 : ℕ) :
    bitsEncode false 4 c8FieldsLSB c8Src [b0, b1, b2, b3] 0
      = .ok (4, [0x32, 0x9e, 0x51, 0x8a])
    ∧ bitsEncode false 4 c8FieldsMSB c8Src [b0, b1, b2, b3] 0
      = .ok (4, [0x51, 0x8a, 0xf1, 0x4c]) := by
  constructor
  · simp +decide [bitsEncode, readUIntG, writeUIntG, writeBytesAt,
      Except.bind, Bind.bind, c8_word_lsb, bytesLE]
  · simp +decide [bitsEncode, readUIntG, writeUIntG, writeBytesAt,
      Except.bind, Bind.bind, c8_word_msb, bytesLE]

/-! ### Boolean bit fields (claim C9)

A `Boolean` field built by `addBoolean` overrides only `decode`
(`!!value`); the source comments that no `encode` override is needed
"since the `src` parameter is interpreted as truthy", but the inherited
`BitField.prototype.encode` begins with `Number.isInteger(value)`,
which is `false` for the JavaScript booleans `true` and `false` — so
encoding an actual boolean throws instead of storing the bit. -/

/-- `lo.bits(lo.u8())` with `addField(1, 'v')` then `addBoolean('b')`. -/
def c9Fields : List BitFieldM :=
  addFieldD 1 false (addFieldD 1 false [] 1 (some "v") false) 1 (some "b") true

/-- C9 (behaviour at the failing input): the boolean field decodes bit
values `1`/`0` to `true`/`false` as claimed, but its `encode` rejects
the truthy boolean input `true` (and the falsy `false`) with the
inherited integer check, instead of storing bit 1 (resp. 0). -/
theorem c9_boolean_bitfield :
    bitsDecode false 1 c9Fields [3] 0
      = .ok (.obj [("v", .num 1), ("b", .vbool true)])
    ∧ bitsDecode false 1 c9Fields [0] 0
      = .ok (.obj [("v", .num 0), ("b", .vbool false)])
    ∧ bitsEncode false 1 c9Fields (.obj [("v", .num 1), ("b", .vbool true)]) [0] 0
      = .error "value must be integer not exceeding valueMask"
    ∧ bitsEncode false 1 c9Fields (.obj [("v", .num 0), ("b", .vbool false)]) [3] 0
      = .error "value must be integer not exceeding valueMask"
    ∧ bitsEncode false 1 c9Fields (.obj [("v", .num 1), ("b", .num 1)]) [0] 0
      = .ok (1, [3]) :=
  ⟨rfl, rfl, rfl, rfl, rfl⟩

/-! ### BitField.encode value range (claim C10) -/

theorem toUint32_mask (bits : ℕ) (hb : bits ≤ 32) :
    toUint32 ((2 ^ bits - 1 : ℕ) : ℤ) = 2 ^ bits - 1 := by
  have h1 : (2 : ℕ) ^ bits - 1 < 4294967296 := by
    have : (2 : ℕ) ^ bits ≤ 2 ^ 32 := Nat.pow_le_pow_right (by norm_num) hb
    norm_num at this ⊢
    omega
  unfold toUint32
  rw [Int.emod_eq_of_lt (by positivity) (by exact_mod_cast h1)]
  exact Int.toNat_natCast _

theorem bitfield_accept_iff (bits : ℕ) (hb : bits ≤ 32) (z : ℤ) :
    (z = ((toUint32 z) &&& (toUint32 ((2 ^ bits - 1 : ℕ) : ℤ)) : ℕ))
      ↔ (0 ≤ z ∧ z < 2 ^ bits) := by
  rw [toUint32_mask bits hb, Nat.and_pow_two_sub_one_eq_mod]
  constructor
  · intro h
    have h1 : (0 : ℤ) ≤ ((toUint32 z % 2 ^ bits : ℕ) : ℤ) := by positivity
    have h2 : toUint32 z % 2 ^ bits < 2 ^ bits :=
      Nat.mod_lt _ (by positivity)
    constructor
    · omega
    · rw [h]
      exact_mod_cast h2
  · rintro ⟨h1, h2⟩
    have hz32 : z < 4294967296 := by
      have : (2 : ℤ) ^ bits ≤ 2 ^ 32 := pow_le_pow_right₀ (by norm_num) hb
      norm_num at this
      omega
    have hu : toUint32 z = z.toNat := by
      unfold toUint32
      rw [Int.emod_eq_of_lt h1 hz32]
    have hlt : z.toNat < 2 ^ bits := by
      have : ((2 : ℕ) ^ bits : ℤ) = (2 : ℤ) ^ bits := by push_cast; ring
      omega
    rw [hu, Nat.mod_eq_of_lt hlt]
    omega

theorem bitfield_encode_range_core (f : BitFieldM)
    (hmask : f.valueMask = 2 ^ f.bits - 1) (hb : f.bits ≤ 32)
    (v : Value) (w : ℕ) :
    ((∃ w', bitFieldEncode f v w = .ok w')
        ↔ ∃ z : ℤ, v = .num z ∧ 0 ≤ z ∧ z < 2 ^ f.bits)
    ∧ ((¬ ∃ z : ℤ, v = .num z ∧ 0 ≤ z ∧ z < 2 ^ f.bits) →
        bitFieldEncode f v w
          = .error "value must be integer not exceeding valueMask") := by
  cases v with
  | num z =>
      rw [show bitFieldEncode f (.num z) w
            = (if z ≠ ((toUint32 z) &&& (toUint32 (f.valueMask : ℤ)) : ℕ) then
                .error "value must be integer not exceeding valueMask"
              else .ok ((w &&& (4294967295 - f.wordMask % 4294967296))
                ||| ((z.toNat <<< (f.start % 32)) % 4294967296))) from rfl,
        hmask]
      by_cases hacc : z = ((toUint32 z) &&& (toUint32 ((2 ^ f.bits - 1 : ℕ) : ℤ)) : ℕ)
      · have hr := (bitfield_accept_iff f.bits hb z).mp hacc
        rw [if_neg (by simpa using hacc)]
        refine ⟨⟨fun _ => ⟨z, rfl, hr.1, hr.2⟩, fun _ => ⟨_, rfl⟩⟩, ?_⟩
        intro hcon
        exact absurd ⟨z, rfl, hr.1, hr.2⟩ hcon
      · have hr : ¬ (0 ≤ z ∧ z < 2 ^ f.bits) := fun hzr =>
          hacc ((bitfield_accept_iff f.bits hb z).mpr hzr)
        rw [if_pos (by simpa using hacc)]
        refine ⟨⟨?_, ?_⟩, fun _ => rfl⟩
        · rintro ⟨w', hw'⟩
          cases hw'
        · rintro ⟨z', hz', hz1, hz2⟩
          cases hz'
          exact absurd ⟨hz1, hz2⟩ hr
  | vbool b =>
      refine ⟨⟨?_, ?_⟩, fun _ => rfl⟩
      · rintro ⟨w', hw'⟩
        cases hw'
      · rintro ⟨z, hz, _, _⟩
        cases hz
  | str s =>
      refine ⟨⟨?_, ?_⟩, fun _ => rfl⟩
      · rintro ⟨w', hw'⟩
        cases hw'
      · rintro ⟨z, hz, _, _⟩
        cases hz
  | bytes d =>
      refine ⟨⟨?_, ?_⟩, fun _ => rfl⟩
      · rintro ⟨w', hw'⟩
        cases hw'
      · rintro ⟨z, hz, _, _⟩
        cases hz
  | arr es =>
      refine ⟨⟨?_, ?_⟩, fun _ => rfl⟩
      · rintro ⟨w', hw'⟩
        cases hw'
      · rintro ⟨z, hz, _, _⟩
        cases hz
  | obj kvs =>
      refine ⟨⟨?_, ?_⟩, fun _ => rfl⟩
      · rintro ⟨w', hw'⟩
        cases hw'
      · rintro ⟨z, hz, _, _⟩
        cases hz

/-- C10: for every BitField of width `b` bits built by
`addField`/`addBoolean` on a word of at most 4 bytes, `encode` succeeds
exactly on the integers `0 … 2^b − 1` (the integers equal to themselves
masked by the field's value mask), and rejects every other value with
an error, which is raised before the staged packed word is touched —
in this state-threaded model the erroring call returns no updated word,
so the containing BitStructure's staged word is left unchanged. -/
theorem c10_bitfield_encode_range (ws : ℕ) (msb : Bool) (flds : List BitFieldM)
    (bits : ℕ) (p : Option String) (isB : Bool) (f : BitFieldM)
    (hws : ws ≤ 4) (hf : mkBitField ws msb flds bits p isB = .ok f)
    (v : Value) (w : ℕ) :
    ((∃ w', bitFieldEncode f v w = .ok w')
        ↔ ∃ z : ℤ, v = .num z ∧ 0 ≤ z ∧ z < 2 ^ bits)
    ∧ ((¬ ∃ z : ℤ, v = .num z ∧ 0 ≤ z ∧ z < 2 ^ bits) →
        bitFieldEncode f v w
          = .error "value must be integer not exceeding valueMask") := by
  simp only [mkBitField] at hf
  split_ifs at hf with h0 hover h32
  all_goals cases Except.ok.inj hf
  all_goals refine bitfield_encode_range_core _ ?_ (show bits ≤ 32 by omega) v w
  all_goals first
    | (show (4294967295 : ℕ) = 2 ^ bits - 1
       rw [h32]
       norm_num)
    | (show (1 <<< (bits % 32)) - 1 = 2 ^ bits - 1
       have hlt : bits % 32 = bits := Nat.mod_eq_of_lt (by omega)
       rw [hlt, Nat.shiftLeft_eq, Nat.one_mul])

/-- Witness for C10 at a concrete 4-bit field of a 2-byte word: `9` is
accepted, `16` and `true` are rejected. -/
theorem c10_bitfield_encode_range_witness :
    mkBitField 2 false [] 4 (some "x") false
      = .ok ⟨4, 15, 0, 15, some "x", false⟩
    ∧ (∃ w', bitFieldEncode ⟨4, 15, 0, 15, some "x", false⟩ (.num 9) 0 = .ok w')
    ∧ bitFieldEncode ⟨4, 15, 0, 15, some "x", false⟩ (.num 16) 0
        = .error "value must be integer not exceeding valueMask" := by
  refine ⟨rfl, ?_, ?_⟩
  · exact (c10_bitfield_encode_range 2 false [] 4 (some "x") false
        ⟨4, 15, 0, 15, some "x", false⟩ (by norm_num) rfl (.num 9) 0).1.mpr
      ⟨9, rfl, by norm_num, by norm_num⟩
  · exact (c10_bitfield_encode_range 2 false [] 4 (some "x") false
        ⟨4, 15, 0, 15, some "x", false⟩ (by norm_num) rfl (.num 16) 0).2
      (by rintro ⟨z, hz, h1, h2⟩; cases hz; norm_num at h2)

/-! ## CString helpers -/

/-- Decimal digit bytes of a natural number (fuel-driven, fuel `n + 1`
always suffices). -/
def natDecimalAux : ℕ → ℕ → List ℕ
  | 0, _ => []
  | f + 1, n =>
      if n < 10 then [48 + n]
      else natDecimalAux f (n / 10) ++ [48 + n % 10]

/-- `src.toString()` for a number source, as UTF-8 bytes. -/
def decimalUtf8 (z : ℤ) : List ℕ :=
  if z < 0 then 45 :: natDecimalAux ((-z).toNat + 1) (-z).toNat
  else natDecimalAux (z.toNat + 1) z.toNat

/-- The NUL scan of `CString.prototype.getSpan`:
`while ((idx < b.length) && (0 !== b[idx])) idx += 1` — out-of-range
indexing yields `undefined`, which is `!== 0`, so a negative start keeps
scanning. -/
def scanZero (b : Buf) : ℤ → ℕ → ℤ
  | idx, 0 => idx
  | idx, f + 1 =>
      if idx < (b.length : ℤ) ∧ (idx < 0 ∨ b.getD idx.toNat 0 ≠ 0) then
        scanZero b (idx + 1) f
      else idx

/-- `CString.prototype.getSpan`: `1 + scanned length`. -/
def cstrGetSpan (b : Buf) (off : ℤ) : ℤ :=
  1 + scanZero b off ((b.length : ℤ) - off).toNat - off

/-- Index clamping of `Buffer.prototype.slice`. -/
def jsSliceIdx (len : ℕ) (i : ℤ) : ℕ :=
  if i < 0 then ((len : ℤ) + i).toNat else min i.toNat len

/-- `Buffer.prototype.slice` (clamping, never throwing). -/
def jsSlice (b : Buf) (s e : ℤ) : Buf :=
  (b.take (jsSliceIdx b.length e)).drop (jsSliceIdx b.length s)

/-- `CString.prototype.decode`: the scanned bytes without the NUL. -/
def cstrDecode (b : Buf) (off : ℤ) : Value :=
  .str (jsSlice b off (off + cstrGetSpan b off - 1))

/-- `CString.prototype.encode`: force the source to a string, write its
UTF-8 bytes, then store a NUL *if the index is still inside the buffer*
(`b[offset + span] = 0` is a silent no-op out of range); returns
`span + 1` regardless.  Array/object sources are beyond this model. -/
def cstrEncode (src : Value) (b : Buf) (off : ℤ) : Except String (ℤ × Buf) :=
  match (match src with
         | .str s => some s
         | .num z => some (decimalUtf8 z)
         | .vbool bo =>
             some (if bo then [116, 114, 117, 101] else [102, 97, 108, 115, 101])
         | _ => none : Option Buf) with
  | none => .error "unsupported CString source in model"
  | some srcb =>
      if (b.length : ℤ) < off + srcb.length then
        .error "RangeError: encoding overruns Buffer"
      else if off < 0 then .error "RangeError: targetStart out of bounds"
      else
        let b1 := writeBytesAt b off.toNat srcb
        let b2 := if off + srcb.length < (b.length : ℤ) then
            b1.set (off + srcb.length).toNat 0
          else b1
        .ok ((srcb.length : ℤ) + 1, b2)

/-! ## External layouts

`ExternalLayout`s that satisfy `isCount()` — the only ones usable as
sequence counts, blob lengths or union discriminators — are an
`OffsetLayout` wrapping a `UInt`/`UIntBE`, or a `GreedyCount`. -/

inductive ExtLayoutM where
  /-- `OffsetLayout` over a `UInt` (`be = false`) or `UIntBE`
  (`be = true`) of `span` bytes, displaced by `disp`. -/
  | offsetU (be : Bool) (span : ℕ) (disp : ℤ) (prop : Option String)
  /-- `GreedyCount` with the given element span. -/
  | greedy (elementSpan : ℕ) (prop : Option String)

/-- The `span` attribute of the external layout (`OffsetLayout` copies
the wrapped layout's span; `GreedyCount` passes `-1`). -/
def extStaticSpan : ExtLayoutM → ℤ
  | .offsetU _ n _ _ => n
  | .greedy _ _ => -1

/-- External-layout `decode` (an absent buffer is the crash on
`undefined` that `getSpan` without a buffer produces). -/
def extDecodeE (e : ExtLayoutM) (ob : Option Buf) (off : ℤ) :
    Except String ℤ :=
  match ob with
  | none => .error "TypeError: b is not defined"
  | some b =>
      match e with
      | .offsetU be n disp _ =>
          (readUIntG be b (off + disp) n).map (fun u => (u : ℤ))
      | .greedy es _ => .ok (((b.length : ℤ) - off).fdiv es)

/-- External-layout `encode`: `OffsetLayout` forwards to the wrapped
integer at `offset + disp` and returns its span; `GreedyCount.encode`
writes nothing and returns 0. -/
def extEncodeE (e : ExtLayoutM) (v : ℤ) (b : Buf) (off : ℤ) :
    Except String (ℤ × Buf) :=
  match e with
  | .offsetU be n disp _ =>
      (writeUIntG be v b (off + disp) n).map (fun b' => ((n : ℤ), b'))
  | .greedy _ _ => .ok (0, b)

/-- A `Sequence#count`/`Blob#length`: a fixed non-negative integer or a
count-capable external layout. -/
inductive CountM where
  | fixed (n : ℕ)
  | ext (e : ExtLayoutM)

/-! ## Blob -/

/-- `Blob.prototype.getSpan`. -/
def blobGetSpan (len : CountM) (ob : Option Buf) (off : ℤ) :
    Except String ℤ :=
  match len with
  | .fixed n => .ok n
  | .ext e => extDecodeE e ob off

/-- `Blob.prototype.decode`: slice the byte range. -/
def blobDecode (len : CountM) (b : Buf) (off : ℤ) : Except String Value :=
  match len with
  | .fixed n => .ok (.bytes (jsSlice b off (off + n)))
  | .ext e => (extDecodeE e (some b) off).map
      (fun sp => .bytes (jsSlice b off (off + sp)))

/-- `Blob.prototype.encode`: the source must be a Buffer of exactly the
resolved span; the overrun check precedes any write; an external length
is stored after the content. -/
def blobEncode (len : CountM) (src : Value) (b : Buf) (off : ℤ) :
    Except String (ℤ × Buf) :=
  match src with
  | .bytes l =>
      let span : ℤ := match len with
        | .fixed n => (n : ℤ)
        | .ext _ => (l.length : ℤ)
      if span ≠ (l.length : ℤ) then
        .error "Blob.encode requires (length span) Buffer as src"
      else if (b.length : ℤ) < off + span then
        .error "RangeError: encoding overruns Buffer"
      else if off < 0 then .error "RangeError: offset out of bounds"
      else
        let b1 := writeBytesAt b off.toNat l
        match len with
        | .fixed _ => .ok (span, b1)
        | .ext e => (extEncodeE e span b1 off).map (fun r => (span, r.2))
  | _ => .error "Blob.encode requires (length span) Buffer as src"

/-! ## The layout tree

The aggregate layout kinds the source composes.  A `Union` stores its
synthesized `UnionLayoutDiscriminator`'s external layout and property,
the `usesPrefixDiscriminator` flag `upv` (the source's own variable
name), the (possibly `null`) default layout, and the mutable variant
registry as a list of `(discriminator value, content layout, property)`
triples — `addVariant` keys the registry by the discriminator value. -/

inductive LayoutM where
  | uInt (be : Bool) (span : ℕ) (prop : Option String)
  | cString (prop : Option String)
  | blob (length : CountM) (prop : Option String)
  | sequence (elementLayout : LayoutM) (count : CountM) (prop : Option String)
  | struct (fields : List LayoutM) (prop : Option String)
  | union (discr : ExtLayoutM) (discrProp : String) (upv : Bool)
      (defaultLayout : Option LayoutM)
      (registry : List (ℕ × LayoutM × String)) (prop : Option String)

/-- The `property` attribute. -/
def LayoutM.property : LayoutM → Option String
  | .uInt _ _ p => p
  | .cString p => p
  | .blob _ p => p
  | .sequence _ _ p => p
  | .struct _ p => p
  | .union _ _ _ _ _ p => p

/-! The `span` attribute, as computed by the constructors.  `Structure`
computes `fields.reduce((v, fd) => v + fd.getSpan(), 0)` in a
`try`/`catch` that turns any failure into the `-1` sentinel;
`getSpanNB` is `getSpan` invoked with no buffer, which each override
answers from static data or fails. -/

mutual

def spanOf : LayoutM → ℤ
  | .uInt _ n _ => n
  | .cString _ => -1
  | .blob (.fixed n) _ => n
  | .blob (.ext _) _ => -1
  | .sequence el (.fixed n) _ => if 0 < spanOf el then n * spanOf el else -1
  | .sequence _ (.ext _) _ => -1
  | .struct fields _ =>
      match structCtorSpan fields with
      | .ok s => s
      | .error _ => -1
  | .union discr _ upv dl _ _ =>
      match dl with
      | none => -1
      | some d =>
          if 0 ≤ spanOf d ∧ upv then spanOf d + extStaticSpan discr
          else spanOf d

def structCtorSpan : List LayoutM → Except String ℤ
  | [] => .ok 0
  | fd :: rest => do
      let s ← getSpanNB fd
      let r ← structCtorSpan rest
      .ok (s + r)

def getSpanNB : LayoutM → Except String ℤ
  | .uInt _ n _ => .ok n
  | .cString _ => .error "TypeError: b must be a Buffer"
  | .blob (.fixed n) _ => .ok n
  | .blob (.ext _) _ => .error "TypeError: b is not defined"
  | .sequence el (.fixed n) _ =>
      if 0 < spanOf el then .ok (n * spanOf el)
      else if n = 0 then .ok 0
      else do
        let es ← getSpanNB el
        .ok (n * es)
  | .sequence _ (.ext _) _ => .error "TypeError: b is not defined"
  | .struct fields _ =>
      match structCtorSpan fields with
      | .ok s => .ok s
      | .error _ => .error "RangeError: indeterminate span"
  | .union discr _ upv dl _ _ =>
      match dl with
      | none => .error "TypeError: b is not defined"
      | some d =>
          let sp := if 0 ≤ spanOf d ∧ upv then spanOf d + extStaticSpan discr
            else spanOf d
          if 0 ≤ sp then .ok sp else .error "TypeError: b is not defined"

end

/-! ## Union registry helpers -/

/-- `this.registry[variant]`: direct integer-keyed lookup. -/
def lookupReg (reg : List (ℕ × LayoutM × String)) (d : ℤ) :
    Option (ℕ × LayoutM × String) :=
  reg.find? (fun e => (e.1 : ℤ) == d)

/-- Insert into a key-ascending list. -/
def insertReg (e : ℕ × LayoutM × String) :
    List (ℕ × LayoutM × String) → List (ℕ × LayoutM × String)
  | [] => [e]
  | x :: xs => if e.1 < x.1 then e :: x :: xs else x :: insertReg e xs

/-- The registry in the order `for (var k in this.registry)` visits it:
JavaScript objects enumerate integer-like keys in ascending numeric
order, **not** in insertion (registration) order. -/
def sortedRegistry (reg : List (ℕ × LayoutM × String)) :
    List (ℕ × LayoutM × String) :=
  reg.foldl (fun acc e => insertReg e acc) []

/-- Scan the registry for a variant whose property the source owns. -/
def scanRegistry (reg : List (ℕ × LayoutM × String)) (src : Value) :
    Except String (Option (ℕ × LayoutM × String)) :=
  match reg.find? (fun e => hasOwn src e.2.2) with
  | some e => .ok (some e)
  | none => .error "unable to infer src variant"

/-- `Union.prototype.defaultGetSourceVariant`: if the source owns both
the discriminator property and the default layout's property, use the
default (non-variant) encoding (`none`); otherwise the first variant in
registry enumeration order whose property the source owns; otherwise an
error.  (With a `null` default layout, owning the discriminator
property makes the source read `null.property` — a TypeError.) -/
def defaultGetSourceVariant (dProp : String) (dl : Option LayoutM)
    (reg : List (ℕ × LayoutM × String)) (src : Value) :
    Except String (Option (ℕ × LayoutM × String)) :=
  if hasOwn src dProp then
    match dl with
    | none => .error "TypeError: defaultLayout is null"
    | some dlo =>
        if hasOwn src (dlo.property.getD "undefined") then .ok none
        else scanRegistry (sortedRegistry reg) src
  else scanRegistry (sortedRegistry reg) src

/-! ## The interpreter

`decode`/`encode`/`getSpan` for the layout tree.  The functions take a
fuel argument so that the recursion (whose sequence loops are bounded
by buffer data, not structure) is primitively structural; every call
decrements the fuel, and exhaustion is the error `"model: out of
fuel"`, which no source behaviour maps to — theorems about results of
the form `.ok _` or a source error string are therefore about the
source's behaviour. -/

mutual

def decodeF : ℕ → LayoutM → Buf → ℤ → Except String Value
  | 0, _, _, _ => .error "model: out of fuel"
  | f + 1, l, b, off =>
      match l with
      | .uInt be n _ => (readUIntG be b off n).map (fun u => .num u)
      | .cString _ => .ok (cstrDecode b off)
      | .blob len _ => blobDecode len b off
      | .sequence el cnt _ => do
          let count ← (match cnt with
            | .fixed n => Except.ok (n : ℤ)
            | .ext e => extDecodeE e (some b) off)
          let vs ← decodeSeqN f el count.toNat b off
          .ok (.arr vs)
      | .struct fields _ => (structDecodeGo f fields b off).map .obj
      | .union discr dProp upv dl reg _ => do
          let d ← extDecodeE discr (some b) off
          match lookupReg reg d with
          | some (k, lo, vprop) => variantDecodeF f discr upv reg k lo vprop b off
          | none =>
              match dl with
              | none => .error "TypeError: defaultLayout is null"
              | some dlo => do
                  let contentOffset : ℤ := if upv then extStaticSpan discr else 0
                  let c ← decodeF f dlo b (off + contentOffset)
                  .ok (.obj [(dProp, .num d), (dlo.property.getD "undefined", c)])

def decodeSeqN : ℕ → LayoutM → ℕ → Buf → ℤ → Except String (List Value)
  | _, _, 0, _, _ => .ok []
  | 0, _, _ + 1, _, _ => .error "model: out of fuel"
  | f + 1, el, n + 1, b, off => do
      let v ← decodeF f el b off
      let sp ← getSpanF f el (some b) off
      let vs ← decodeSeqN f el n b (off + sp)
      .ok (v :: vs)

def structDecodeGo : ℕ → List LayoutM → Buf → ℤ →
    Except String (List (String × Value))
  | _, [], _, _ => .ok []
  | 0, _ :: _, _, _ => .error "model: out of fuel"
  | f + 1, fd :: rest, b, off => do
      let entry ← (match fd.property with
        | none => Except.ok none
        | some p => (decodeF f fd b off).map (fun v => some (p, v)))
      let sp ← getSpanF f fd (some b) off
      let rest' ← structDecodeGo f rest b (off + sp)
      .ok (match entry with
        | none => rest'
        | some e => e :: rest')

def variantDecodeF : ℕ → ExtLayoutM → Bool → List (ℕ × LayoutM × String) →
    ℕ → LayoutM → String → Buf → ℤ → Except String Value
  | 0, _, _, _, _, _, _, _, _ => .error "model: out of fuel"
  | f + 1, discr, upv, reg, key, lo, vprop, b, off => do
      let d ← extDecodeE discr (some b) off
      match lookupReg reg d with
      | some (k', _, p') =>
          if k' = key ∧ p' = vprop then do
            let contentOffset : ℤ := if upv then extStaticSpan discr else 0
            let c ← decodeF f lo b (off + contentOffset)
            .ok (.obj [(vprop, c)])
          else .error "variant mismatch"
      | none => .error "variant mismatch"

def getSpanF : ℕ → LayoutM → Option Buf → ℤ → Except String ℤ
  | 0, _, _, _ => .error "model: out of fuel"
  | f + 1, l, ob, off =>
      match l with
      | .uInt _ n _ => .ok n
      | .cString _ =>
          match ob with
          | none => .error "TypeError: b must be a Buffer"
          | some b => .ok (cstrGetSpan b off)
      | .blob len _ => blobGetSpan len ob off
      | .sequence el cnt p =>
          if 0 ≤ spanOf (.sequence el cnt p) then
            .ok (spanOf (.sequence el cnt p))
          else do
            let count ← (match cnt with
              | .fixed n => Except.ok (n : ℤ)
              | .ext e => extDecodeE e ob off)
            if 0 < spanOf el then .ok (count * spanOf el)
            else getSpanSeqN f el count.toNat ob off
      | .struct fields p =>
          if 0 ≤ spanOf (.struct fields p) then .ok (spanOf (.struct fields p))
          else
            match structGetSpanGo f fields ob off with
            | .ok s => .ok s
            | .error _ => .error "RangeError: indeterminate span"
      | .union discr dProp upv dl reg p =>
          if 0 ≤ spanOf (.union discr dProp upv dl reg p) then
            .ok (spanOf (.union discr dProp upv dl reg p))
          else do
            let d ← extDecodeE discr ob off
            match lookupReg reg d with
            | none => .error "unable to determine span for unrecognized variant"
            | some (_, lo, _) =>
                variantGetSpanF f discr upv
                  (spanOf (.union discr dProp upv dl reg p)) lo ob off

def getSpanSeqN : ℕ → LayoutM → ℕ → Option Buf → ℤ → Except String ℤ
  | _, _, 0, _, _ => .ok 0
  | 0, _, _ + 1, _, _ => .error "model: out of fuel"
  | f + 1, el, n + 1, ob, off => do
      let esp ← getSpanF f el ob off
      let r ← getSpanSeqN f el n ob (off + esp)
      .ok (esp + r)

def structGetSpanGo : ℕ → List LayoutM → Option Buf → ℤ → Except String ℤ
  | _, [], _, _ => .ok 0
  | 0, _ :: _, _, _ => .error "model: out of fuel"
  | f + 1, fd :: rest, ob, off => do
      let fsp ← getSpanF f fd ob off
      let r ← structGetSpanGo f rest ob (off + fsp)
      .ok (fsp + r)

def variantGetSpanF : ℕ → ExtLayoutM → Bool → ℤ → LayoutM → Option Buf →
    ℤ → Except String ℤ
  | 0, _, _, _, _, _, _ => .error "model: out of fuel"
  | f + 1, discr, upv, uspan, lo, ob, off =>
      let vspan := if 0 ≤ uspan then uspan
        else if 0 ≤ spanOf lo then
          (if upv then spanOf lo + extStaticSpan discr else spanOf lo)
        else -1
      if 0 ≤ vspan then .ok vspan
      else do
        let contentOffset : ℤ := if upv then extStaticSpan discr else 0
        let s ← getSpanF f lo ob (off + contentOffset)
        .ok (contentOffset + s)

def encodeF : ℕ → LayoutM → Value → Buf → ℤ → Except String (ℤ × Buf)
  | 0, _, _, _, _ => .error "model: out of fuel"
  | f + 1, l, v, b, off =>
      match l with
      | .uInt be n _ =>
          match v with
          | .num z => (writeUIntG be z b off n).map (fun b' => ((n : ℤ), b'))
          | _ => .error "TypeError: value is not a number"
      | .cString _ => cstrEncode v b off
      | .blob len _ => blobEncode len v b off
      | .sequence el cnt _ =>
          match v with
          | .arr vs => do
              let (span, b1) ← encodeSeqGo f el vs b off
              match cnt with
              | .ext e => do
                  let r ← extEncodeE e vs.length b1 off
                  .ok (span, r.2)
              | .fixed _ => .ok (span, b1)
          | _ => .error "TypeError: src.forEach is not a function"
      | .struct fields _ => structEncodeGo f fields v b off 0 0
      | .union discr dProp upv dl reg _ =>
          match defaultGetSourceVariant dProp dl reg v with
          | .error e => .error e
          | .ok none => do
              let contentOffset : ℤ := if upv then extStaticSpan discr else 0
              let dv ← (match lookupObj v dProp with
                | some (.num z) => Except.ok z
                | _ => Except.error "TypeError: discriminator is not a number")
              let r1 ← extEncodeE discr dv b off
              match dl with
              | none => .error "TypeError: defaultLayout is null"
              | some dlo => do
                  let cv ← (match lookupObj v (dlo.property.getD "undefined") with
                    | some c => Except.ok c
                    | none => Except.error "TypeError: content is undefined")
                  let (r2, b2) ← encodeF f dlo cv r1.2 (off + contentOffset)
                  .ok (contentOffset + r2, b2)
          | .ok (some (k, lo, vprop)) =>
              variantEncodeF f discr upv
                (spanOf (.union discr dProp upv dl reg none)) k lo vprop v b off

def encodeSeqGo : ℕ → LayoutM → List Value → Buf → ℤ →
    Except String (ℤ × Buf)
  | _, _, [], b, _ => .ok (0, b)
  | 0, _, _ :: _, _, _ => .error "model: out of fuel"
  | f + 1, el, v :: vs, b, off => do
      let r1 ← encodeF f el v b off
      let sp ← getSpanF f el (some r1.2) off
      let (s, b2) ← encodeSeqGo f el vs r1.2 (off + sp)
      .ok (sp + s, b2)

def structEncodeGo : ℕ → List LayoutM → Value → Buf → ℤ → ℤ → ℤ →
    Except String (ℤ × Buf)
  | _, [], _, b, _, lastOffset, lastWrote => .ok (lastOffset + lastWrote, b)
  | 0, _ :: _, _, _, _, _, _ => .error "model: out of fuel"
  | f + 1, fd :: rest, src, b, offset, _, lastWrote =>
      match fd.property with
      | none =>
          if 0 < spanOf fd then
            structEncodeGo f rest src b (offset + spanOf fd) offset (spanOf fd)
          else .error "AssertionError: 0 < span"
      | some p =>
          match lookupObj src p with
          | none => structEncodeGo f rest src b (offset + spanOf fd) offset lastWrote
          | some fv => do
              let (w, b1) ← encodeF f fd fv b offset
              let span2 ← (if spanOf fd < 0 then getSpanF f fd (some b1) offset
                else pure (spanOf fd))
              structEncodeGo f rest src b1 (offset + span2) offset w

def variantEncodeF : ℕ → ExtLayoutM → Bool → ℤ → ℕ → LayoutM → String →
    Value → Buf → ℤ → Except String (ℤ × Buf)
  | 0, _, _, _, _, _, _, _, _, _ => .error "model: out of fuel"
  | f + 1, discr, upv, uspan, key, lo, vprop, src, b, off =>
      let contentOffset : ℤ := if upv then extStaticSpan discr else 0
      if ¬ hasOwn src vprop then .error "TypeError: variant lacks property"
      else do
        let r1 ← extEncodeE discr key b off
        let sv ← (match lookupObj src vprop with
          | some x => Except.ok x
          | none => Except.error "TypeError: variant lacks property")
        let r2 ← encodeF f lo sv r1.2 (off + contentOffset)
        let s ← getSpanF f lo (some r2.2) (off + contentOffset)
        if 0 ≤ uspan ∧ uspan < contentOffset + s then
          .error "encoded variant overruns containing union"
        else .ok (contentOffset + s, r2.2)

end

/-! ## Union decode (claim C1) -/

/-- C1: for every Union, buffer, and offset, `decode` reads the
discriminator value; if the value matches a variant registered in the
union's registry, decoding is delegated entirely to that variant's
`decode`; otherwise the default layout is decoded at the content offset
— which skips the discriminator's width only when the union uses a
prefix discriminator — and the result is an object carrying the raw
discriminator value under the discriminator's property name and the
default content under the default layout's property name. -/
theorem c1_union_decode (f : ℕ) (discr : ExtLayoutM) (dProp : String)
    (upv : Bool) (dl : Option LayoutM) (reg : List (ℕ × LayoutM × String))
    (uProp : Option String) (b : Buf) (off d : ℤ)
    (hd : extDecodeE discr (some b) off = .ok d) :
    (∀ k lo vprop, lookupReg reg d = some (k, lo, vprop) →
        decodeF (f + 1) (.union discr dProp upv dl reg uProp) b off
          = variantDecodeF f discr upv reg k lo vprop b off)
    ∧ (lookupReg reg d = none → ∀ dlo, dl = some dlo →
        decodeF (f + 1) (.union discr dProp upv dl reg uProp) b off
          = (decodeF f dlo b
                (off + (if upv then extStaticSpan discr else 0))).map
              (fun c =>
                .obj [(dProp, .num d), (dlo.property.getD "undefined", c)])) := by
  constructor
  · intro k lo vprop hk
    simp [decodeF, Except.bind, Bind.bind, hd, hk]
  · intro hk dlo hdl
    subst hdl
    simp only [decodeF, Except.bind, Bind.bind, hd, hk]
    cases hres : decodeF f dlo b (off + (if upv then extStaticSpan discr else 0)) <;>
      simp [hres, Except.map, Except.bind]

/-- Witness for C1 on a concrete prefix union (`u8` discriminator `v`,
`u32` default `content`, variant `2` registered as `v2`): a buffer whose
first byte is `2` delegates to the variant; a buffer whose first byte is
`9` falls back to the default layout at content offset 1 and exposes the
raw discriminator. -/
theorem c1_union_decode_witness :
    extDecodeE (.offsetU false 1 0 none) (some [2, 1, 0, 0, 0]) 0 = .ok 2
    ∧ decodeF 6 (.union (.offsetU false 1 0 none) "v" true
          (some (.uInt false 4 (some "content")))
          [(2, .uInt false 4 none, "v2")] none) [2, 1, 0, 0, 0] 0
        = variantDecodeF 5 (.offsetU false 1 0 none) true
            [(2, .uInt false 4 none, "v2")] 2 (.uInt false 4 none) "v2"
            [2, 1, 0, 0, 0] 0
    ∧ decodeF 6 (.union (.offsetU false 1 0 none) "v" true
          (some (.uInt false 4 (some "content")))
          [(2, .uInt false 4 none, "v2")] none) [9, 1, 0, 0, 0] 0
        = (decodeF 5 (.uInt false 4 (some "content")) [9, 1, 0, 0, 0]
              (0 + (if true then extStaticSpan (.offsetU false 1 0 none) else 0))).map
            (fun c => .obj [("v", .num 9), ("content", c)]) := by
  refine ⟨rfl, ?_, ?_⟩
  · exact (c1_union_decode 5 (.offsetU false 1 0 none) "v" true
        (some (.uInt false 4 (some "content"))) [(2, .uInt false 4 none, "v2")]
        none [2, 1, 0, 0, 0] 0 2 rfl).1 2 (.uInt false 4 none) "v2" rfl
  · exact (c1_union_decode 5 (.offsetU false 1 0 none) "v" true
        (some (.uInt false 4 (some "content"))) [(2, .uInt false 4 none, "v2")]
        none [9, 1, 0, 0, 0] 0 9 rfl).2 rfl _ rfl

/-! ## Sequence excess elements (claim C3)

The source's own doc comment on `Sequence.prototype.encode` says "If
`src` is longer than count the unneeded elements are ignored", but the
implementation iterates `src.forEach(...)` with no bound: every source
element is encoded. -/

/-- C3 (behaviour at the failing input): a fixed-count-2 byte sequence
(static span 2) encodes the 3-element source `[1,2,3]` by writing all
three bytes — the third source value is *not* ignored — and returns
span 3. -/
theorem c3_sequence_excess_encoded :
    encodeF 20 (.sequence (.uInt false 1 none) (.fixed 2) (some "s"))
        (.arr [.num 1, .num 2, .num 3]) [0, 0, 0] 0 = .ok (3, [1, 2, 3])
    ∧ spanOf (.sequence (.uInt false 1 none) (.fixed 2) (some "s")) = 2 :=
  ⟨rfl, rfl⟩

/-! ## Omitted structure fields (claim C5)

`Structure.prototype.encode` performs no check for an omitted named
field of indeterminate span: it advances the running offset by the
field's `-1` sentinel span and continues. -/

/-- C5 counterexample: encoding a structure whose sole field is a named
variable-span `CString` from a source lacking that property succeeds
(returning 0 with the buffer untouched) instead of raising an error. -/
theorem c5_variable_omitted_counterexample :
    encodeF 20 (.struct [.cString (some "s")] none) (.obj []) [7, 7] 0
      = .ok (0, [7, 7]) := rfl

/-- C5 amended: omitting a named fixed-span field is not an error and
advances the write position by that field's static span (second part:
the next field writes at `off + s`); omitting a named *indeterminate*-
span field is **also** not an error — the offset is advanced by the
`-1` sentinel span itself, so a following one-byte field writes at
`off + spanOf fd`, i.e. *before* the structure's own start (third
part); with no following field the encode returns successfully (first
part). -/
theorem c5_omitted_field_behaviour :
    (∀ (fu : ℕ) (fd : LayoutM) (p : String) (src : Value) (b : Buf) (off : ℤ),
        fd.property = some p → lookupObj src p = none →
        structEncodeGo (fu + 1) [fd] src b off 0 0 = .ok (off, b))
    ∧ (∀ (fu : ℕ) (fd : LayoutM) (p q : String) (zv : ℤ) (src : Value)
          (b : Buf) (off s : ℤ),
        spanOf fd = s → 0 ≤ s → fd.property = some p →
        lookupObj src p = none → lookupObj src q = some (.num zv) →
        structEncodeGo (fu + 3) [fd, .uInt false 1 (some q)] src b off 0 0
          = (writeUIntG false zv b (off + s) 1).map
              (fun b' => (off + s + 1, b')))
    ∧ (∀ (fu : ℕ) (fd : LayoutM) (p q : String) (zv : ℤ) (src : Value)
          (b : Buf) (off : ℤ),
        spanOf fd < 0 → fd.property = some p →
        lookupObj src p = none → lookupObj src q = some (.num zv) →
        structEncodeGo (fu + 3) [fd, .uInt false 1 (some q)] src b off 0 0
          = (writeUIntG false zv b (off + spanOf fd) 1).map
              (fun b' => (off + spanOf fd + 1, b'))) := by
  refine ⟨?_, ?_, ?_⟩
  · intro fu fd p src b off hp hsrc
    simp [structEncodeGo, hp, hsrc]
  · intro fu fd p q zv src b off s hs hs0 hp hsrc hq
    simp only [structEncodeGo, hp, hsrc, hs, hq, encodeF]
    cases hw : writeUIntG false zv b (off + s) 1 <;>
      simp [hw, Except.bind, Bind.bind, Except.map, structEncodeGo, spanOf,
        LayoutM.property, hq, pure, Except.pure,
        show ¬ ((1 : ℤ) < 0) by norm_num]
  · intro fu fd p q zv src b off hs hp hsrc hq
    simp only [structEncodeGo, hp, hsrc, hq, encodeF]
    cases hw : writeUIntG false zv b (off + spanOf fd) 1 <;>
      simp [hw, Except.bind, Bind.bind, Except.map, structEncodeGo, spanOf,
        LayoutM.property, hq, pure, Except.pure,
        show ¬ ((1 : ℤ) < 0) by norm_num]

/-- Witness for C5's amended statement at concrete instances: a
`u16`-then-`u8` structure with the `u16` omitted writes the `u8` at
offset 2; a `CString`-then-`u8` structure with the string omitted
writes the `u8` at offset −1 of the structure — i.e. at absolute
offset 0 when encoding at offset 1. -/
theorem c5_omitted_field_behaviour_witness :
    structEncodeGo 20 [.cString (some "s")] (.obj []) [7, 7] 0 0 0
      = .ok (0, [7, 7])
    ∧ structEncodeGo 20 [.uInt false 2 (some "a"), .uInt false 1 (some "x")]
        (.obj [("x", .num 5)]) [9, 9, 9] 0 0 0
      = .ok (3, [9, 9, 5])
    ∧ structEncodeGo 20 [.cString (some "s"), .uInt false 1 (some "x")]
        (.obj [("x", .num 5)]) [9, 9, 9, 9] 1 0 0
      = .ok (1, [5, 9, 9, 9]) := by
  refine ⟨(c5_omitted_field_behaviour.1 19 (.cString (some "s")) "s"
      (.obj []) [7, 7] 0 rfl rfl), ?_, ?_⟩
  · have h := (c5_omitted_field_behaviour.2.1 17 (.uInt false 2 (some "a"))
      "a" "x" 5 (.obj [("x", .num 5)]) [9, 9, 9] 0 2 rfl (by norm_num) rfl rfl rfl)
    rw [h]
    rfl
  · have h := (c5_omitted_field_behaviour.2.2 17 (.cString (some "s"))
      "s" "x" 5 (.obj [("x", .num 5)]) [9, 9, 9, 9] 1 (by decide) rfl rfl rfl)
    rw [h]
    rfl

/-! ## Blob and CString boundary behaviour (claim C6) -/

/-- C6 counterexample: encoding the 2-byte string `"ab"` into a 2-byte
buffer requires span 3 (text plus NUL), which exceeds the remaining
capacity — yet the call succeeds, returns 3, writes the text flush to
the end of the buffer and silently drops the NUL terminator. -/
theorem c6_cstring_exact_fit_counterexample :
    cstrEncode (.str [97, 98]) [255, 255] 0 = .ok (3, [97, 98])
    ∧ (([255, 255] : Buf).length : ℤ) < 0 + 2 + 1 :=
  ⟨rfl, by norm_num⟩

/-- C6 amended: `Blob.encode` (fixed or external length) raises the
overrun error, before writing anything, whenever the blob's span
exceeds the remaining capacity; `CString.encode` raises the overrun
error, before writing anything, only when the *text bytes alone*
exceed the remaining capacity — when the text exactly fills the
remaining space no error is raised, the text is written, the NUL byte
is silently dropped (never written beyond the boundary: the result
keeps the buffer's length), and the call still returns `text + 1`. -/
theorem c6_overrun_behaviour :
    (∀ (n : ℕ) (l b : Buf) (off : ℤ), l.length = n → 0 ≤ off →
        (b.length : ℤ) < off + n →
        blobEncode (.fixed n) (.bytes l) b off
          = .error "RangeError: encoding overruns Buffer")
    ∧ (∀ (e : ExtLayoutM) (l b : Buf) (off : ℤ), 0 ≤ off →
        (b.length : ℤ) < off + l.length →
        blobEncode (.ext e) (.bytes l) b off
          = .error "RangeError: encoding overruns Buffer")
    ∧ (∀ (sb b : Buf) (off : ℤ), 0 ≤ off →
        (b.length : ℤ) < off + sb.length →
        cstrEncode (.str sb) b off
          = .error "RangeError: encoding overruns Buffer")
    ∧ (∀ (sb b : Buf) (off : ℤ), 0 ≤ off →
        off + sb.length = (b.length : ℤ) →
        cstrEncode (.str sb) b off
          = .ok ((sb.length : ℤ) + 1, b.take off.toNat ++ sb)) := by
  refine ⟨?_, ?_, ?_, ?_⟩
  · intro n l b off hl hoff hcap
    simp only [blobEncode]
    rw [if_neg (by omega), if_pos (by omega)]
  · intro e l b off hoff hcap
    simp only [blobEncode]
    rw [if_neg (by omega), if_pos (by omega)]
  · intro sb b off hoff hcap
    simp only [cstrEncode]
    rw [if_pos (by omega)]
  · intro sb b off hoff hfit
    simp only [cstrEncode]
    rw [if_neg (by omega), if_neg (by omega), if_neg (by omega)]
    have hdrop : b.drop (off.toNat + sb.length) = [] :=
      List.drop_eq_nil_of_le (by omega)
    simp [writeBytesAt, hdrop]

/-- Witness for C6's amended statement at concrete inputs. -/
theorem c6_overrun_behaviour_witness :
    blobEncode (.fixed 3) (.bytes [1, 2, 3]) [0, 0] 0
      = .error "RangeError: encoding overruns Buffer"
    ∧ blobEncode (.ext (.greedy 1 none)) (.bytes [1, 2, 3]) [0, 0] 0
      = .error "RangeError: encoding overruns Buffer"
    ∧ cstrEncode (.str [97, 98, 99]) [255, 255] 0
      = .error "RangeError: encoding overruns Buffer"
    ∧ cstrEncode (.str [97, 98]) [255, 255, 255] 1
      = .ok (3, [255, 97, 98]) := by
  refine ⟨?_, ?_, ?_, ?_⟩
  · exact c6_overrun_behaviour.1 3 [1, 2, 3] [0, 0] 0 rfl (by norm_num) (by norm_num)
  · exact c6_overrun_behaviour.2.1 (.greedy 1 none) [1, 2, 3] [0, 0] 0
      (by norm_num) (by norm_num)
  · exact c6_overrun_behaviour.2.2.1 [97, 98, 99] [255, 255] 0
      (by norm_num) (by norm_num)
  · exact c6_overrun_behaviour.2.2.2 [97, 98] [255, 255, 255] 1
      (by norm_num) (by norm_num)

/-! ## getSourceVariant precedence and scan order (claim C7)

`defaultGetSourceVariant` checks the default shape first, as claimed
and as its own doc comment ("The default variant (`undefined`) or first
registered variant that uses a property available in `src`") states —
but the registry scan is `for (var k in this.registry)` over an
integer-keyed object, which JavaScript enumerates in ascending numeric
key order, **not** in registration order. -/

/-- C7 (behaviour at the failing input): with variant 5 (`p5`)
registered before variant 2 (`p2`) and a source owning both properties
(but not the default shape), the scan selects variant **2** — the
lowest key — not the first-registered variant 5.  The default-shape
precedence and the no-match error behave as claimed. -/
theorem c7_get_source_variant :
    defaultGetSourceVariant "v" (some (.uInt false 4 (some "content")))
        [(5, .uInt false 4 none, "p5"), (2, .uInt false 4 none, "p2")]
        (.obj [("p5", .num 1), ("p2", .num 2)])
      = .ok (some (2, .uInt false 4 none, "p2"))
    ∧ defaultGetSourceVariant "v" (some (.uInt false 4 (some "content")))
        [(5, .uInt false 4 none, "p5"), (2, .uInt false 4 none, "p2")]
        (.obj [("v", .num 3), ("content", .num 9), ("p5", .num 1)])
      = .ok none
    ∧ defaultGetSourceVariant "v" (some (.uInt false 4 (some "content")))
        [(5, .uInt false 4 none, "p5"), (2, .uInt false 4 none, "p2")]
        (.obj [("other", .num 3)])
      = .error "unable to infer src variant" :=
  ⟨rfl, rfl, rfl⟩

/-! ## Frame properties of encode (claim C4)

The source's own frame guarantees — padding regions and omitted-field
regions untouched — hold only for fields that write strictly inside
their own fixed span.  `FixedWriter` is that semantic property; scalar
integer layouts satisfy it (`fixedWriter_uInt`), while e.g. a fixed
sequence given more source elements than its count (claim C3) or a
union whose external discriminator is displaced into a sibling's
region write outside their span and break the invariance (the
counterexample below). -/

/-- `b'` agrees with `b` in length and at every index outside
`[lo, hi)`. -/
def unchangedOutside (b b' : Buf) (lo hi : ℤ) : Prop :=
  b'.length = b.length ∧
    ∀ i : ℕ, ((i : ℤ) < lo ∨ hi ≤ (i : ℤ)) → b'.getD i 0 = b.getD i 0

/-- A layout of fixed span whose `encode`, whenever it succeeds, has
written only within `[off, off + span)`. -/
def FixedWriter (l : LayoutM) : Prop :=
  0 ≤ spanOf l ∧
    ∀ (fu : ℕ) (v : Value) (b : Buf) (off r : ℤ) (b' : Buf),
      encodeF fu l v b off = .ok (r, b') →
      unchangedOutside b b' off (off + spanOf l)

theorem writeBytesAt_getD (b : Buf) (s : ℕ) (bs : Buf)
    (hs : s + bs.length ≤ b.length) (i : ℕ)
    (h : i < s ∨ s + bs.length ≤ i) :
    (writeBytesAt b s bs).getD i 0 = b.getD i 0 := by
  have hsl : s ≤ b.length := by omega
  have hlen : (b.take s ++ bs).length = s + bs.length := by
    simp [List.length_take]
    omega
  rw [writeBytesAt, List.getD_eq_getElem?_getD, List.getD_eq_getElem?_getD]
  rcases h with h | h
  · rw [List.getElem?_append, if_pos (by omega), List.getElem?_append,
      if_pos (by simp [List.length_take]; omega), List.getElem?_take, if_pos h]
  · rw [List.getElem?_append_right (by omega), List.getElem?_drop, hlen]
    congr 2
    omega

/-- Writing `n` bytes at a valid nonnegative offset changes nothing
outside `[off, off + n)`. -/
theorem unchangedOutside_writeBytesAt (b : Buf) (off : ℤ) (bs : Buf) (n : ℕ)
    (hbs : bs.length = n) (hoff : 0 ≤ off) (hlen : off.toNat + n ≤ b.length) :
    unchangedOutside b (writeBytesAt b off.toNat bs) off (off + n) := by
  constructor
  · rw [writeBytesAt_length _ _ _ (by omega)]
  · intro i hi
    refine writeBytesAt_getD b off.toNat _ (by omega) i ?_
    omega

/-- Unsigned integer layouts write exactly their span. -/
theorem fixedWriter_uInt (be : Bool) (n : ℕ) (p : Option String) :
    FixedWriter (.uInt be n p) := by
  refine ⟨by simp [spanOf], ?_⟩
  intro fu v b off r b' henc
  cases fu with
  | zero => exact absurd henc (by simp [encodeF])
  | succ f =>
      cases v with
      | num z =>
          simp only [encodeF] at henc
          cases hw : writeUIntG be z b off n with
          | error e => rw [hw] at henc; exact absurd henc (by simp [Except.map])
          | ok bw =>
              rw [hw] at henc
              simp only [Except.map, Except.ok.injEq, Prod.mk.injEq] at henc
              obtain ⟨-, hb'⟩ := henc
              subst hb'
              simp only [writeUIntG] at hw
              split_ifs at hw with h1 h2 hbe
              all_goals first
                | exact Except.noConfusion hw
                | (obtain ⟨hoff, hlen⟩ := h2
                   cases Except.ok.inj hw
                   simpa [spanOf] using unchangedOutside_writeBytesAt b off _ n
                     (by simp [bytesLE_length]) hoff hlen)
      | vbool bb => exact absurd henc (by simp [encodeF])
      | str ss => exact absurd henc (by simp [encodeF])
      | bytes dd => exact absurd henc (by simp [encodeF])
      | arr ee => exact absurd henc (by simp [encodeF])
      | obj kk => exact absurd henc (by simp [encodeF])

/-- `getSpan` on a layout with statically known span returns that
span. -/
theorem getSpanF_fixed (fu : ℕ) (l : LayoutM) (ob : Option Buf) (off s : ℤ)
    (hl : 0 ≤ spanOf l) (h : getSpanF fu l ob off = .ok s) : s = spanOf l := by
  cases fu with
  | zero => exact absurd h (by simp [getSpanF])
  | succ f =>
      cases l with
      | uInt be n p =>
          simp only [getSpanF, Except.ok.injEq] at h
          simp [spanOf, ← h]
      | cString p => simp [spanOf] at hl
      | blob len p =>
          cases len with
          | fixed n =>
              simp only [getSpanF, blobGetSpan, Except.ok.injEq] at h
              simp [spanOf, ← h]
          | ext e => simp [spanOf] at hl
      | sequence el cnt p =>
          simp only [getSpanF, if_pos hl, Except.ok.injEq] at h
          exact h.symm
      | struct fields p =>
          simp only [getSpanF, if_pos hl, Except.ok.injEq] at h
          exact h.symm
      | union discr dProp upv dl reg p =>
          simp only [getSpanF, if_pos hl, Except.ok.injEq] at h
          exact h.symm

/-- Offset of field `i` within a structure: the sum of the static spans
of the preceding fields (the source advances `offset += span` with
`span = fd.span` for fixed-span fields). -/
def prefixSpan (fields : List LayoutM) (i : ℕ) : ℤ :=
  ((fields.take i).map spanOf).sum

theorem prefixSpan_zero (fields : List LayoutM) : prefixSpan fields 0 = 0 := rfl

theorem prefixSpan_cons_succ (fd : LayoutM) (rest : List LayoutM) (j : ℕ) :
    prefixSpan (fd :: rest) (j + 1) = spanOf fd + prefixSpan rest j := by
  simp [prefixSpan]

theorem prefixSpan_nonneg (fields : List LayoutM) (i : ℕ)
    (h : ∀ fd ∈ fields, 0 ≤ spanOf fd) : 0 ≤ prefixSpan fields i := by
  refine List.sum_nonneg ?_
  intro x hx
  obtain ⟨fd, hfd, rfl⟩ := List.mem_map.mp hx
  exact h fd (List.take_subset _ _ hfd)

/-- When every field writes only within its own fixed span, a structure
encode never touches a byte before its starting offset. -/
theorem structEncodeGo_low (fields : List LayoutM) :
    ∀ (f : ℕ) (src : Value) (b : Buf) (offset lo lw r : ℤ) (b' : Buf),
      (∀ fd ∈ fields, FixedWriter fd) →
      structEncodeGo f fields src b offset lo lw = .ok (r, b') →
      b'.length = b.length ∧
        ∀ i : ℕ, (i : ℤ) < offset → b'.getD i 0 = b.getD i 0 := by
  induction fields with
  | nil =>
      intro f src b offset lo lw r b' _ h
      simp only [structEncodeGo, Except.ok.injEq, Prod.mk.injEq] at h
      obtain ⟨-, rfl⟩ := h
      exact ⟨rfl, fun i _ => rfl⟩
  | cons fd rest ih =>
      intro f src b offset lo lw r b' hmem h
      cases f with
      | zero => simp [structEncodeGo] at h
      | succ g =>
          have hfd : FixedWriter fd := hmem fd (List.mem_cons_self _ _)
          have hsp0 : 0 ≤ spanOf fd := hfd.1
          have hrest : ∀ fd' ∈ rest, FixedWriter fd' :=
            fun fd' hm => hmem fd' (List.mem_cons_of_mem _ hm)
          simp only [structEncodeGo] at h
          cases hp : fd.property with
          | none =>
              simp only [hp] at h
              split_ifs at h with hs
              obtain ⟨hl, hlow⟩ := ih g src b (offset + spanOf fd) offset
                (spanOf fd) r b' hrest h
              exact ⟨hl, fun i hi => hlow i (by omega)⟩
          | some p =>
              simp only [hp] at h
              cases hv : lookupObj src p with
              | none =>
                  simp only [hv] at h
                  obtain ⟨hl, hlow⟩ := ih g src b (offset + spanOf fd) offset
                    lw r b' hrest h
                  exact ⟨hl, fun i hi => hlow i (by omega)⟩
              | some fv =>
                  simp only [hv] at h
                  cases he : encodeF g fd fv b offset with
                  | error e => simp [he, Except.bind, Bind.bind] at h
                  | ok wb1 =>
                      obtain ⟨w, b1⟩ := wb1
                      simp only [he, Except.bind, Bind.bind,
                        if_neg (show ¬ spanOf fd < 0 by omega), pure,
                        Except.pure] at h
                      obtain ⟨hl1, hout1⟩ := hfd.2 g fv b offset w b1 he
                      obtain ⟨hl, hlow⟩ := ih g src b1 (offset + spanOf fd)
                        offset w r b' hrest h
                      refine ⟨hl.trans hl1, fun i hi => ?_⟩
                      rw [hlow i (by omega), hout1 i (Or.inl hi)]

/-- A sequence encode from a fixed-span element layout writes only
within the region holding its source elements (the source iterates
`src.forEach`, each write advancing by the element span). -/
theorem encodeSeqGo_frame (vs : List Value) :
    ∀ (f : ℕ) (el : LayoutM) (b : Buf) (off s : ℤ) (b' : Buf),
      FixedWriter el →
      encodeSeqGo f el vs b off = .ok (s, b') →
      b'.length = b.length ∧
        ∀ i : ℕ, ((i : ℤ) < off ∨ off + (vs.length : ℤ) * spanOf el ≤ (i : ℤ)) →
          b'.getD i 0 = b.getD i 0 := by
  induction vs with
  | nil =>
      intro f el b off s b' _ h
      simp only [encodeSeqGo, Except.ok.injEq, Prod.mk.injEq] at h
      obtain ⟨-, rfl⟩ := h
      exact ⟨rfl, fun i _ => rfl⟩
  | cons v vs ih =>
      intro f el b off s b' hel h
      cases f with
      | zero => simp [encodeSeqGo] at h
      | succ g =>
          have hs0 : 0 ≤ spanOf el := hel.1
          simp only [encodeSeqGo] at h
          cases he : encodeF g el v b off with
          | error e => simp [he, Except.bind, Bind.bind] at h
          | ok wb1 =>
              obtain ⟨w, b1⟩ := wb1
              cases hg : getSpanF g el (some b1) off with
              | error e => simp [he, hg, Except.bind, Bind.bind] at h
              | ok sp =>
                  have hsp : sp = spanOf el :=
                    getSpanF_fixed g el (some b1) off sp hs0 hg
                  cases hrec : encodeSeqGo g el vs b1 (off + sp) with
                  | error e => simp [he, hg, hrec, Except.bind, Bind.bind] at h
                  | ok sb2 =>
                      obtain ⟨s2, b2⟩ := sb2
                      simp only [he, hg, hrec, Except.bind, Bind.bind,
                        Except.ok.injEq, Prod.mk.injEq] at h
                      obtain ⟨-, rfl⟩ := h
                      subst hsp
                      obtain ⟨hl1, hout1⟩ := hel.2 g v b off w b1 he
                      obtain ⟨hl2, hout2⟩ :=
                        ih g el b1 (off + spanOf el) s2 b2 hel hrec
                      have hln : 0 ≤ (vs.length : ℤ) * spanOf el :=
                        mul_nonneg (by positivity) hs0
                      refine ⟨hl2.trans hl1, fun i hi => ?_⟩
                      have hi' : (i : ℤ) < off ∨
                          off + spanOf el + (vs.length : ℤ) * spanOf el ≤ i := by
                        rcases hi with hi | hi
                        · exact Or.inl hi
                        · refine Or.inr ?_
                          have hx : off + ((vs.length : ℤ) + 1) * spanOf el
                              ≤ i := by
                            simp only [List.length_cons] at hi
                            push_cast at hi
                            linarith
                          have hexp : ((vs.length : ℤ) + 1) * spanOf el
                              = (vs.length : ℤ) * spanOf el + spanOf el := by
                            ring
                          linarith
                      have h2 : b2.getD i 0 = b1.getD i 0 := by
                        refine hout2 i ?_
                        rcases hi' with hi' | hi'
                        · exact Or.inl (by omega)
                        · exact Or.inr (by linarith)
                      have h1 : b1.getD i 0 = b.getD i 0 := by
                        refine hout1 i ?_
                        rcases hi' with hi' | hi'
                        · exact Or.inl hi'
                        · exact Or.inr (by linarith)
                      rw [h2, h1]

/-- When every field writes only within its own fixed span, the buffer
region of an unnamed field, or of a named field absent from the source,
is untouched by a structure encode. -/
theorem structEncodeGo_preserves (fields : List LayoutM) :
    ∀ (f : ℕ) (src : Value) (b : Buf) (offset lo lw r : ℤ) (b' : Buf)
      (i : ℕ) (hi : i < fields.length),
      (∀ fd ∈ fields, FixedWriter fd) →
      ((fields.get ⟨i, hi⟩).property = none ∨
        ∃ p, (fields.get ⟨i, hi⟩).property = some p ∧ lookupObj src p = none) →
      structEncodeGo f fields src b offset lo lw = .ok (r, b') →
      b'.length = b.length ∧
        ∀ j : ℕ, offset + prefixSpan fields i ≤ (j : ℤ) →
          (j : ℤ) < offset + prefixSpan fields i +
            spanOf (fields.get ⟨i, hi⟩) →
          b'.getD j 0 = b.getD j 0 := by
  induction fields with
  | nil =>
      intro f src b offset lo lw r b' i hi
      exact absurd hi (by simp)
  | cons fd rest ih =>
      intro f src b offset lo lw r b' i hi hmem htarget h
      cases f with
      | zero => simp [structEncodeGo] at h
      | succ g =>
          have hfd : FixedWriter fd := hmem fd (List.mem_cons_self _ _)
          have hsp0 : 0 ≤ spanOf fd := hfd.1
          have hrest : ∀ fd' ∈ rest, FixedWriter fd' :=
            fun fd' hm => hmem fd' (List.mem_cons_of_mem _ hm)
          simp only [structEncodeGo] at h
          cases i with
          | zero =>
              have hget : (fd :: rest).get ⟨0, hi⟩ = fd := rfl
              rw [hget] at htarget
              rw [hget, prefixSpan_zero]
              cases hp : fd.property with
              | none =>
                  simp only [hp] at h
                  split_ifs at h with hs
                  obtain ⟨hl, hlow⟩ := structEncodeGo_low rest g src b
                    (offset + spanOf fd) offset (spanOf fd) r b' hrest h
                  exact ⟨hl, fun j h1 h2 => hlow j (by omega)⟩
              | some p =>
                  rcases htarget with hn | ⟨q, hq, hlook⟩
                  · exact absurd (hp ▸ hn) (by simp)
                  · have hpq : q = p := by
                      rw [hp] at hq
                      exact (Option.some.inj hq).symm
                    subst hpq
                    simp only [hp, hlook] at h
                    obtain ⟨hl, hlow⟩ := structEncodeGo_low rest g src b
                      (offset + spanOf fd) offset lw r b' hrest h
                    exact ⟨hl, fun j h1 h2 => hlow j (by omega)⟩
          | succ j =>
              have hj : j < rest.length := by
                simp only [List.length_cons] at hi
                omega
              have hpre : 0 ≤ prefixSpan rest j :=
                prefixSpan_nonneg rest j (fun fd' hm => (hrest fd' hm).1)
              have hget : (fd :: rest).get ⟨j + 1, hi⟩ = rest.get ⟨j, hj⟩ := rfl
              rw [hget] at htarget
              rw [hget, prefixSpan_cons_succ]
              cases hp : fd.property with
              | none =>
                  simp only [hp] at h
                  split_ifs at h with hs
                  obtain ⟨hl, hreg⟩ := ih g src b (offset + spanOf fd) offset
                    (spanOf fd) r b' j hj hrest htarget h
                  exact ⟨hl, fun j' h1 h2 =>
                    hreg j' (by omega) (by omega)⟩
              | some p =>
                  simp only [hp] at h
                  cases hv : lookupObj src p with
                  | none =>
                      simp only [hv] at h
                      obtain ⟨hl, hreg⟩ := ih g src b (offset + spanOf fd)
                        offset lw r b' j hj hrest htarget h
                      exact ⟨hl, fun j' h1 h2 =>
                        hreg j' (by omega) (by omega)⟩
                  | some fv =>
                      simp only [hv] at h
                      cases he : encodeF g fd fv b offset with
                      | error e => simp [he, Except.bind, Bind.bind] at h
                      | ok wb1 =>
                          obtain ⟨w, b1⟩ := wb1
                          simp only [he, Except.bind, Bind.bind,
                            if_neg (show ¬ spanOf fd < 0 by omega), pure,
                            Except.pure] at h
                          obtain ⟨hl1, hout1⟩ := hfd.2 g fv b offset w b1 he
                          obtain ⟨hl, hreg⟩ := ih g src b1 (offset + spanOf fd)
                            offset w r b' j hj hrest htarget h
                          refine ⟨hl.trans hl1, fun j' h1 h2 => ?_⟩
                          rw [hreg j' (by omega) (by omega),
                            hout1 j' (Or.inr (by omega))]

/-- Counterexample to the unconditional padding-invariance reading of
C4: a structure whose first field is a fixed-count sequence given more
source elements than its count (the C3 overrun) writes through the
following unnamed field's region.  The padding field occupies
`[2, 3)` (prefix span 2, span 1), yet byte 2 changes from `0xaa` to the
excess element `3`. -/
theorem c4_padding_clobbered :
    encodeF 20
        (.struct [.sequence (.uInt false 1 (some "e")) (.fixed 2) (some "s"),
          .uInt false 1 none] (some "t"))
        (.obj [("s", .arr [.num 1, .num 2, .num 3])]) [170, 170, 170] 0
      = .ok (3, [1, 2, 3]) ∧
    (LayoutM.uInt false 1 none).property = none ∧
    prefixSpan [.sequence (.uInt false 1 (some "e")) (.fixed 2) (some "s"),
      .uInt false 1 none] 1 = 2 ∧
    spanOf (.uInt false 1 none) = 1 ∧
    ([1, 2, 3] : Buf).getD 2 0 ≠ ([170, 170, 170] : Buf).getD 2 0 := by
  exact ⟨rfl, rfl, by decide, rfl, by decide⟩

/-- **C4** (corrected).  Padding and partial-source invariance hold for
structures all of whose fields write only within their own fixed span
(`FixedWriter`), and for fixed-count sequences of such elements; the
unconditional claim fails when a field overruns its span
(`c4_padding_clobbered`).  Part one: encoding a structure of
fixed-span-writing fields leaves the buffer length unchanged and, for
any field `i` that is unnamed or whose property the source object
lacks, leaves every byte of that field's region
`[off + prefixSpan i, off + prefixSpan i + span i)` unchanged.  Part
two: encoding a fixed-count sequence from a source collection leaves
every byte at or beyond `off + src.length * elementSpan` unchanged —
in particular the slots of the elements the short source does not
supply. -/
theorem c4_region_invariance :
    (∀ (fu : ℕ) (fields : List LayoutM) (prop : Option String) (src : Value)
      (b : Buf) (off r : ℤ) (b' : Buf) (i : ℕ) (hi : i < fields.length),
      (∀ fd ∈ fields, FixedWriter fd) →
      ((fields.get ⟨i, hi⟩).property = none ∨
        ∃ p, (fields.get ⟨i, hi⟩).property = some p ∧
          lookupObj src p = none) →
      encodeF (fu + 1) (.struct fields prop) src b off = .ok (r, b') →
      b'.length = b.length ∧
        ∀ j : ℕ, off + prefixSpan fields i ≤ (j : ℤ) →
          (j : ℤ) < off + prefixSpan fields i +
            spanOf (fields.get ⟨i, hi⟩) →
          b'.getD j 0 = b.getD j 0) ∧
    (∀ (fu : ℕ) (el : LayoutM) (cnt : ℕ) (prop : Option String)
      (vs : List Value) (b : Buf) (off r : ℤ) (b' : Buf),
      FixedWriter el →
      encodeF (fu + 1) (.sequence el (.fixed cnt) prop) (.arr vs) b off
        = .ok (r, b') →
      b'.length = b.length ∧
        ∀ j : ℕ, off + (vs.length : ℤ) * spanOf el ≤ (j : ℤ) →
          b'.getD j 0 = b.getD j 0) := by
  constructor
  · intro fu fields prop src b off r b' i hi hmem htarget h
    simp only [encodeF] at h
    exact structEncodeGo_preserves fields fu src b off 0 0 r b' i hi hmem
      htarget h
  · intro fu el cnt prop vs b off r b' hel h
    simp only [encodeF] at h
    cases hrec : encodeSeqGo fu el vs b off with
    | error e => simp [hrec, Except.bind, Bind.bind] at h
    | ok sb1 =>
        obtain ⟨sp, b1⟩ := sb1
        simp only [hrec, Except.bind, Bind.bind, Except.ok.injEq,
          Prod.mk.injEq] at h
        obtain ⟨-, rfl⟩ := h
        obtain ⟨hl, hout⟩ := encodeSeqGo_frame vs fu el b off sp b1 hel hrec
        exact ⟨hl, fun j hj => hout j (Or.inr hj)⟩

/-- Witness for C4: a structure `[u16 "a", 1-byte padding, u8 "x"]`
encoded from `{a: 0x1234, x: 5}` into `[9, 9, 9, 9]` leaves padding
byte 2 unchanged, and a count-3 byte sequence encoded from the
one-element source `[1]` into `[9, 9, 9]` leaves slot byte 2
unchanged. -/
theorem c4_region_invariance_witness :
    ([52, 18, 9, 5] : Buf).getD 2 0 = ([9, 9, 9, 9] : Buf).getD 2 0 ∧
    ([1, 9, 9] : Buf).getD 2 0 = ([9, 9, 9] : Buf).getD 2 0 := by
  constructor
  · refine (c4_region_invariance.1 4
      [.uInt false 2 (some "a"), .uInt false 1 none, .uInt false 1 (some "x")]
      (some "t") (.obj [("a", .num 4660), ("x", .num 5)])
      [9, 9, 9, 9] 0 4 [52, 18, 9, 5] 1 (by decide) ?_ (Or.inl rfl)
      rfl).2 2 (by decide) (by decide)
    intro fd hfd
    fin_cases hfd <;> exact fixedWriter_uInt _ _ _
  · exact (c4_region_invariance.2 4 (.uInt false 1 (some "e")) 3 (some "q")
      [.num 1] [9, 9, 9] 0 1 [1, 9, 9] (fixedWriter_uInt _ _ _)
      rfl).2 2 (by decide)

end BufferLayout
